import Mathlib

/-!
Shallow embedding of the MAG attrition pipeline
(`MAG_attrition_pipeline.py`): lineage building from a rank report,
the kraken read map, GC statistics, the streaming FASTQ aggregator,
the attrition-table writer, and the binned-reference cache.

Python strings are modelled as Lean `String` (a list of characters);
Python floats are modelled as exact rationals `ℚ`; Python exceptions
are modelled with `Except String`.  Operations such as `str.strip`,
`str.split`, `str.upper` are embedded character-by-character below.
-/

namespace MagAttrition

/-- Split a character list at every occurrence of `c`
(Python `str.split(c)` for a one-character separator: keeps empty
chunks, `[] ↦ [[]]`). -/
def splitChar (c : Char) : List Char → List (List Char)
  | [] => [[]]
  | x :: t =>
    let r := splitChar c t
    if x = c then [] :: r
    else
      match r with
      | [] => [[x]]
      | a :: as => (x :: a) :: as

/-- Join character chunks with a single separator character
(Python `c.join(parts)`). -/
def joinChar (c : Char) : List (List Char) → List Char
  | [] => []
  | [a] => a
  | a :: rest => a ++ c :: joinChar c rest

/-- Split a character list at every character satisfying `p`. -/
def splitPred (p : Char → Bool) : List Char → List (List Char)
  | [] => [[]]
  | x :: t =>
    let r := splitPred p t
    if p x then [] :: r
    else
      match r with
      | [] => [[x]]
      | a :: as => (x :: a) :: as

/-- Python `s.split()` (no argument): whitespace-run tokens, with empty
chunks dropped. -/
def wsTokens (l : List Char) : List (List Char) :=
  (splitPred Char.isWhitespace l).filter (fun a => !a.isEmpty)

/-- Python `s.strip()`: drop leading and trailing whitespace. -/
def pyStrip (s : String) : String :=
  ⟨(((s.data.dropWhile Char.isWhitespace).reverse.dropWhile
      Char.isWhitespace).reverse)⟩

/-- Python `s.rstrip("\n")`: drop trailing newline characters. -/
def rstripNl (s : String) : String :=
  ⟨((s.data.reverse.dropWhile (fun c => c = '\n')).reverse)⟩

/-- Python `s.split(sep)` for a one-character separator, on strings. -/
def pySplit (c : Char) (s : String) : List String :=
  (splitChar c s.data).map String.mk

/-- Python `sep.join(parts)` for a one-character separator, on strings. -/
def pyJoin (c : Char) (parts : List String) : String :=
  ⟨joinChar c (parts.map String.data)⟩

/-- Python `s.upper()` (ASCII). -/
def pyUpper (s : String) : String := ⟨s.data.map Char.toUpper⟩

/-- Decimal digit character for `d < 10` (`'0' + d`). -/
def digitCh (d : Nat) : Char := Char.ofNat (48 + d)

/-- Little-endian decimal digit list of a natural number, with
structural fuel (any fuel above the digit count gives the digits). -/
def natDigitsRevAux : Nat → Nat → List Char
  | 0, _ => []
  | fuel + 1, n =>
    if n < 10 then [digitCh n]
    else digitCh (n % 10) :: natDigitsRevAux fuel (n / 10)

/-- Little-endian decimal digit list of a natural number. -/
def natDigitsRev (n : Nat) : List Char := natDigitsRevAux (n + 1) n

/-- Python `str(n)` for a non-negative integer: decimal representation. -/
def natStr (n : Nat) : String := ⟨(natDigitsRev n).reverse⟩

/-- Python `if s.startswith("@"): s = s[1:]`, at character level. -/
def stripAtSign : List Char → List Char
  | '@' :: t => t
  | l => l

/-- `normalize_read_id` from the source: strip the string, drop one
leading `@`, return the first whitespace-separated token.
`s.split()[0]` raises `IndexError` when no token exists, modelled as
`Except.error`. -/
def normalize_read_id (s : String) : Except String String :=
  let s2 : List Char := stripAtSign (pyStrip s).data
  match wsTokens s2 with
  | [] => .error "IndexError"
  | tok :: _ => .ok ⟨tok⟩

/-- `rank_prefix` from the source: the fixed rank-code → prefix table. -/
def rankPref (rank : String) : Option String :=
  match rank with
  | "D" => some "d__"
  | "K" => some "k__"
  | "P" => some "p__"
  | "C" => some "c__"
  | "O" => some "o__"
  | "F" => some "f__"
  | "G" => some "g__"
  | "S" => some "s__"
  | _ => none

/-- `gc_fraction` from the source: strip and uppercase the sequence,
return `0` for the empty sequence, else `(count G + count C) / length`
(exact rational in place of the Python float). -/
def gc_fraction (seq : String) : ℚ :=
  let s := (pyUpper (pyStrip seq)).data
  if s.isEmpty then 0
  else ((s.count 'G' + s.count 'C' : ℕ) : ℚ) / (s.length : ℚ)

/-- Point update of a string-keyed partial map (Python dict
assignment). -/
def updOpt (k v : String) (m : String → Option String) : String → Option String :=
  fun x => if x = k then some v else m x

theorem updOpt_self (k v : String) (m : String → Option String) :
    updOpt k v m k = some v := by
  unfold updOpt
  rw [if_pos rfl]

theorem updOpt_ne {x k : String} (h : ¬x = k) (v : String)
    (m : String → Option String) : updOpt k v m x = m x := by
  unfold updOpt
  rw [if_neg h]

/-- State of `parse_report_build_label_map`: the taxid→lineage result
map and the per-rank ladder (`lineage_by_rank`), both modelled as
partial maps. -/
structure LBState where
  taxid_to_lineage : String → Option String
  lineage_by_rank : String → Option String

/-- The initial (empty) lineage-builder state. -/
def initLB : LBState := ⟨fun _ => none, fun _ => none⟩

/-- The rank order used when joining a genus/species lineage
(`ordered` in the source, before the optional `"S"` append). -/
def orderedG : List String := ["D", "K", "P", "C", "O", "F", "G"]

/-- Field extraction for one report line: `None` when the stripped line
is empty or it has fewer than 6 tab-separated fields, otherwise
`(rank, taxid, name.strip())` from fields 3, 4, 5. -/
def reportRow (line : String) : Option (String × String × String) :=
  if (pyStrip line).data.isEmpty then none
  else
    let parts := pySplit '\t' (rstripNl line)
    if parts.length < 6 then none
    else some (parts.getD 3 "", parts.getD 4 "", pyStrip (parts.getD 5 ""))

/-- The body of the report-parsing loop, for one line. -/
def procLine (st : LBState) (line : String) : LBState :=
  match reportRow line with
  | none => st
  | some (rank, taxid, name) =>
    let st1 : LBState :=
      match rankPref rank with
      | some pref =>
        { st with lineage_by_rank := updOpt rank (pref ++ name) st.lineage_by_rank }
      | none => st
    if rank = "G" ∨ rank = "S" then
      let ordered := if rank = "S" then orderedG ++ ["S"] else orderedG
      let lineage_str := pyJoin ';' (ordered.filterMap st1.lineage_by_rank)
      { st1 with taxid_to_lineage := updOpt taxid lineage_str st1.taxid_to_lineage }
    else st1

/-- `parse_report_build_label_map` from the source, over the report's
lines: fold the loop body and return the taxid→lineage map. -/
def parse_report_build_label_map (lines : List String) : String → Option String :=
  (lines.foldl procLine initLB).taxid_to_lineage

/-- The body of the kraken-parsing loop, for one line:
skip blank/short lines, apply the `classified_only` filter, then
normalize the read id (which may raise) and record the taxid. -/
def krakenLine (classified_only : Bool) (m : String → Option String)
    (line : String) : Except String (String → Option String) :=
  if (pyStrip line).data.isEmpty then .ok m
  else
    let parts := pySplit '\t' (rstripNl line)
    if parts.length < 3 then .ok m
    else
      let status := parts.getD 0 ""
      if classified_only ∧ status ≠ "C" then .ok m
      else
        match normalize_read_id (parts.getD 1 "") with
        | .error e => .error e
        | .ok read_id =>
          .ok fun r => if r = read_id then some (parts.getD 2 "") else m r

/-- Tail of `load_kraken_read_map`: process the remaining lines from a
given partial map. -/
def loadKrakenAux (classified_only : Bool) (lines : List String)
    (m : String → Option String) : Except String (String → Option String) :=
  match lines with
  | [] => .ok m
  | line :: rest =>
    match krakenLine classified_only m line with
    | .error e => .error e
    | .ok m' => loadKrakenAux classified_only rest m'

/-- `load_kraken_read_map` from the source, over the stream's lines. -/
def load_kraken_read_map (lines : List String) (classified_only : Bool) :
    Except String (String → Option String) :=
  loadKrakenAux classified_only lines (fun _ => none)

/-- The three counters held per lineage by the `counts` accumulator
(`{"total": 0, "mapped": 0, "unmapped": 0}`). -/
structure Counts3 where
  total : Nat
  mapped : Nat
  unmapped : Nat
deriving DecidableEq

/-- The zero counter record (the defaultdict default). -/
def zero3 : Counts3 := ⟨0, 0, 0⟩

/-- The `file_key` argument of `process_fastq`; the pipeline passes
`"mapped"` for the first pass and `"unmapped"` for the second. -/
inductive FileKey where
  | mapped
  | unmapped
deriving DecidableEq

/-- Bump the counter selected by `file_key`. -/
def bumpKey (k : FileKey) (c : Counts3) : Counts3 :=
  match k with
  | .mapped => { c with mapped := c.mapped + 1 }
  | .unmapped => { c with unmapped := c.unmapped + 1 }

/-- The shared aggregation state of `write_attrition_csv`: the three
defaultdicts (`counts`, `gc_sum`, `gc_n`) as total maps with their
defaults, plus the insertion-ordered key list of the `counts` dict. -/
structure Acc where
  counts : String → Counts3
  gc_sum : String → ℚ
  gc_n : String → Nat
  keys : List String

/-- The empty accumulator (fresh defaultdicts). -/
def initAcc : Acc := ⟨fun _ => zero3, fun _ => 0, fun _ => 0, []⟩

/-- Ingest one joined record for lineage `lin` with sequence line
`seq`: increment `total` and the `file_key` counter, add the record's
GC fraction, bump the GC sample count, and register the key. -/
def ingestHit (fk : FileKey) (lin : String) (seq : String) (st : Acc) : Acc :=
  { counts := fun x => if x = lin then bumpKey fk
        { st.counts lin with total := (st.counts lin).total + 1 }
      else st.counts x
    gc_sum := fun x => if x = lin then st.gc_sum lin + gc_fraction seq else st.gc_sum x
    gc_n := fun x => if x = lin then st.gc_n lin + 1 else st.gc_n x
    keys := if lin ∈ st.keys then st.keys else st.keys ++ [lin] }

/-- `process_fastq` from the source, over the file's lines: read four
lines per record, stop on a missing header or quality line (`readline`
past end-of-file returns `""`, so fewer than four remaining lines
means an empty quality line and the loop breaks), normalize the header
(which may raise), join read → taxid → lineage, skip on a miss or an
empty lineage string (`if not lineage`), otherwise ingest the record. -/
def process_fastq (lines : List String) (read_to_taxid : String → Option String)
    (taxid_to_lineage : String → Option String) (fk : FileKey) (st : Acc) :
    Except String Acc :=
  match lines with
  | h :: seq :: _ :: qual :: rest =>
    if h = "" then .ok st
    else if qual = "" then .ok st
    else
      match normalize_read_id h with
      | .error e => .error e
      | .ok read_id =>
        let st' :=
          match (read_to_taxid read_id).bind taxid_to_lineage with
          | none => st
          | some lin => if lin.data.isEmpty then st else ingestHit fk lin seq st
        process_fastq rest read_to_taxid taxid_to_lineage fk st'
  | _ => .ok st

/-- Unfolding equation for one four-line record. -/
theorem process_fastq_cons4 (h s p q : String) (rest : List String)
    (r2t t2l : String → Option String) (fk : FileKey) (st : Acc) :
    process_fastq (h :: s :: p :: q :: rest) r2t t2l fk st =
      (if h = "" then .ok st
       else if q = "" then .ok st
       else
         match normalize_read_id h with
         | .error e => .error e
         | .ok rid =>
           process_fastq rest r2t t2l fk
             (match (r2t rid).bind t2l with
              | none => st
              | some lin =>
                if lin.data.isEmpty then st else ingestHit fk lin s st)) := rfl

/-- A stream with fewer than four lines ingests nothing. -/
theorem process_fastq_short (lines : List String)
    (r2t t2l : String → Option String) (fk : FileKey) (st : Acc)
    (hlen : lines.length < 4) :
    process_fastq lines r2t t2l fk st = .ok st := by
  rcases lines with _ | ⟨a, _ | ⟨b, _ | ⟨c, _ | ⟨d, rest⟩⟩⟩⟩
  · rfl
  · rfl
  · rfl
  · rfl
  · exfalso
    simp only [List.length_cons] at hlen
    omega

/-- One output row of the attrition table (lineage, total count,
mapped proportion, unmapped proportion, average GC). -/
structure Row where
  lin : String
  tot : Nat
  mprop : ℚ
  uprop : ℚ
  avg : ℚ
deriving DecidableEq

/-- Python division, raising `ZeroDivisionError` on a zero divisor. -/
def pydiv (a b : ℚ) : Except String ℚ :=
  if b = 0 then .error "ZeroDivisionError" else .ok (a / b)

/-- Stable insertion for descending-by-total order: place `e` after
every entry with a strictly larger total (the position Python's stable
`sorted(..., key=total, reverse=True)` gives an element arriving from
the left). -/
def insertDesc (e : String × Counts3) : List (String × Counts3) → List (String × Counts3)
  | [] => [e]
  | x :: t => if e.2.total < x.2.total then x :: insertDesc e t else e :: x :: t

/-- `sorted(counts.items(), key=lambda kv: kv[1]["total"], reverse=True)`:
a stable sort by total count, descending. -/
def sortDescTotal : List (String × Counts3) → List (String × Counts3)
  | [] => []
  | x :: t => insertDesc x (sortDescTotal t)

/-- The writer loop over the already-sorted items: skip entries below
`min_reads`, emit a row computing both proportions with Python
division (which can raise) and the explicitly guarded GC average. -/
def writeRowsLoop (gcSum : String → ℚ) (gcN : String → Nat) (min_reads : ℤ) :
    List (String × Counts3) → Except String (List Row)
  | [] => .ok []
  | (l, c) :: rest =>
    if (c.total : ℤ) < min_reads then writeRowsLoop gcSum gcN min_reads rest
    else
      match pydiv (c.mapped : ℚ) (c.total : ℚ), pydiv (c.unmapped : ℚ) (c.total : ℚ) with
      | .ok mp, .ok up =>
        let avg : ℚ := if gcN l ≠ 0 then gcSum l / (gcN l : ℚ) else 0
        match writeRowsLoop gcSum gcN min_reads rest with
        | .ok rows => .ok (⟨l, c.total, mp, up, avg⟩ :: rows)
        | .error e => .error e
      | .error e, _ => .error e
      | _, .error e => .error e

/-- The data rows written by `write_attrition_csv` (lines 150–158 of
the source): sort the accumulator items by total descending, filter by
`min_reads`, and compute each row's derived fields. -/
def write_attrition_rows (items : List (String × Counts3)) (gcSum : String → ℚ)
    (gcN : String → Nat) (min_reads : ℤ) : Except String (List Row) :=
  writeRowsLoop gcSum gcN min_reads (sortDescTotal items)

/-- One directory entry of the fragment (bins) directory: its name,
its byte content (a string; `st_size` is its length), its modification
time already truncated to whole seconds (`int(st.st_mtime)`), and
whether it is a regular file. -/
structure DirEntry where
  name : String
  content : String
  mtime : Nat
  isFile : Bool
deriving DecidableEq

/-- Lexicographic (codepoint) order on character lists, Python's
string comparison. -/
def lexLe : List Char → List Char → Bool
  | [], _ => true
  | _ :: _, [] => false
  | a :: s, b :: t => if a = b then lexLe s t else decide (a.toNat < b.toNat)

/-- Python string `<=` on names. -/
def nameLe (a b : String) : Bool := lexLe a.data b.data

/-- Stable insertion for ascending-by-name order (`sorted(...)` over
paths of a single directory compares their final names). -/
def insertByName (e : DirEntry) : List DirEntry → List DirEntry
  | [] => [e]
  | x :: t => if nameLe e.name x.name then e :: x :: t else x :: insertByName e t

/-- `sorted(bins_dir.glob("*"))`: the directory's entries in ascending
name order (pathlib's `glob("*")` matches every entry). -/
def sortByName : List DirEntry → List DirEntry
  | [] => []
  | x :: t => insertByName x (sortByName t)

/-- The bytes `bins_cache_key` feeds into the digest for one file:
`p.name`, `str(st.st_size)`, `str(int(st.st_mtime))`, concatenated. -/
def keyContrib (e : DirEntry) : List Char :=
  e.name.data ++ (natStr e.content.length).data ++ (natStr e.mtime).data

/-- `bins_cache_key` from the source: iterate the directory's entries
sorted by name, keep regular files, and feed name/size/mtime into a
cumulative digest.  The SHA-256 hex digest prefix is modelled as the
fed byte stream itself (an injective digest abstraction; the claims
about the key are claims about that stream). -/
def bins_cache_key (bins : List DirEntry) : List Char :=
  ((sortByName bins).filter (fun e => e.isFile)).flatMap keyContrib

/-- Whether a character list contains the substring `".fa"`. -/
def containsFa : List Char → Bool
  | '.' :: 'f' :: 'a' :: _ => true
  | _ :: t => containsFa t
  | [] => false

/-- `"*.fa*"` as a pathlib glob pattern: the name contains `".fa"`. -/
def faMatch (name : String) : Bool := containsFa name.data

/-- The artifact file name `binned_{key}.fasta` for a fragment
directory. -/
def refNameFor (bins : List DirEntry) : String :=
  "binned_" ++ (⟨bins_cache_key bins⟩ : String) ++ ".fasta"

/-- `build_or_get_binned_reference` from the source.  The cache
directory is modelled as an association list from artifact file name
to content.  Returns the artifact name, the new cache state, and
whether the artifact was (re)written.  Opening a matching entry that
is not a regular file raises, modelled as `Except.error` (Python would
leave a partially written artifact behind in that case; the model
collapses the aborted run to the error value). -/
def build_or_get_binned_reference (bins : List DirEntry)
    (cache : List (String × String)) :
    Except String (String × List (String × String) × Bool) :=
  let ref := refNameFor bins
  if (cache.lookup ref).isSome then .ok (ref, cache, false)
  else
    let matching := (sortByName bins).filter (fun e => faMatch e.name)
    if matching.all (fun e => e.isFile) then
      let content := String.join (matching.map (fun e => e.content))
      .ok (ref, (ref, content) :: cache, true)
    else .error "IsADirectoryError"

/-! ### Helper lemmas: characters and GC counting -/

theorem ofNat_toNat_small (n : Nat) (h : n < 55296) : (Char.ofNat n).toNat = n := by
  have hv : n.isValidChar := Or.inl h
  simp [Char.ofNat, hv, Char.toNat, Char.ofNatAux, UInt32.toNat, BitVec.toNat_ofNatLt]

theorem toUpper_eq_iff (c u : Char) (hu : 65 ≤ u.toNat) (hu2 : u.toNat ≤ 90)
    (l : Char) (hl : l.toNat = u.toNat + 32) :
    Char.toUpper c = u ↔ (c = u ∨ c = l) := by
  constructor
  · intro h
    simp only [Char.toUpper] at h
    by_cases hc : c.toNat ≥ 97 ∧ c.toNat ≤ 122
    · rw [if_pos hc] at h
      right
      have hn : (Char.ofNat (c.toNat - 32)).toNat = c.toNat - 32 :=
        ofNat_toNat_small _ (by omega)
      have hcl : c.toNat = l.toNat := by
        have := congrArg Char.toNat h
        rw [hn] at this
        omega
      exact Char.ext (UInt32.ext hcl)
    · rw [if_neg hc] at h
      left; exact h
  · intro h
    rcases h with h | h <;> rw [h]
    · simp only [Char.toUpper]
      rw [if_neg (by omega)]
    · simp only [Char.toUpper]
      rw [if_pos (by omega)]
      apply Char.ext
      apply UInt32.ext
      show (Char.ofNat (l.toNat - 32)).toNat = u.toNat
      rw [ofNat_toNat_small _ (by omega)]
      omega

theorem dropWhile_eq_self_of_none {p : Char → Bool} {l : List Char}
    (h : ∀ c ∈ l, p c = false) : l.dropWhile p = l := by
  cases l with
  | nil => rfl
  | cons x t =>
    rw [List.dropWhile_cons, h x (by simp)]
    simp

theorem pyStrip_eq_self {s : String} (h : ∀ c ∈ s.data, c.isWhitespace = false) :
    pyStrip s = s := by
  apply String.ext
  show (((s.data.dropWhile Char.isWhitespace).reverse.dropWhile
      Char.isWhitespace).reverse) = s.data
  rw [dropWhile_eq_self_of_none h]
  rw [dropWhile_eq_self_of_none (fun c hc => h c (List.mem_reverse.mp hc))]
  exact List.reverse_reverse _

theorem countP_disjoint_add (p q : Char → Bool) (l : List Char)
    (h : ∀ a ∈ l, ¬(p a = true ∧ q a = true)) :
    l.countP p + l.countP q = l.countP (fun a => p a || q a) := by
  induction l with
  | nil => simp
  | cons x t ih =>
    simp only [List.countP_cons]
    rw [← ih (fun a ha => h a (by simp [ha]))]
    cases hp : p x with
    | true =>
      cases hq : q x with
      | true => exact absurd ⟨hp, hq⟩ (h x (by simp))
      | false => simp [hp, hq]; omega
    | false =>
      cases hq : q x with
      | true => simp [hp, hq]; omega
      | false => simp [hp, hq]

theorem countP_upper (l : List Char) (u lo : Char) (hu : 65 ≤ u.toNat)
    (hu2 : u.toNat ≤ 90) (hl : lo.toNat = u.toNat + 32) :
    (l.map Char.toUpper).count u = l.countP (fun c => c == u || c == lo) := by
  rw [List.count_eq_countP, List.countP_map]
  apply List.countP_congr
  intro c _
  simp only [Function.comp, beq_iff_eq, Bool.or_eq_true]
  exact toUpper_eq_iff c u hu hu2 lo hl

/-- The specification's formula for GC content, stated directly from
the spec's words: (count of G + count of C, case-insensitive) divided
by sequence length, with an empty sequence yielding 0. -/
def gcSpecFormula (s : String) : ℚ :=
  if s.data.isEmpty then 0
  else ((s.data.countP
      (fun c => c == 'G' || c == 'g' || c == 'C' || c == 'c') : ℕ) : ℚ) /
    (s.data.length : ℚ)

theorem pyUpper_data (s : String) : (pyUpper s).data = s.data.map Char.toUpper := rfl

/-- C6: For every whitespace-free input string (a sequence proper),
the implementation's GC fraction equals the case-insensitive
(#G + #C) / length formula of the spec; the empty sequence yields
exactly 0 with no division error, GCGC yields exactly 1, and ATAT
yields exactly 0. -/
theorem claim_C6 :
    (∀ s : String, (∀ c ∈ s.data, c.isWhitespace = false) →
      gc_fraction s = gcSpecFormula s) ∧
    gc_fraction "" = 0 ∧ gc_fraction "GCGC" = 1 ∧ gc_fraction "ATAT" = 0 := by
  refine ⟨?_, rfl, ?_, ?_⟩
  · intro s h
    unfold gc_fraction gcSpecFormula
    rw [pyStrip_eq_self h]
    simp only [pyUpper_data, List.isEmpty_eq_true, List.map_eq_nil_iff,
      List.length_map]
    by_cases hl : s.data = []
    · simp [hl]
    · rw [if_neg hl, if_neg hl]
      have hG : (s.data.map Char.toUpper).count 'G' =
          s.data.countP (fun c => c == 'G' || c == 'g') :=
        countP_upper s.data 'G' 'g' (by decide) (by decide) (by decide)
      have hC : (s.data.map Char.toUpper).count 'C' =
          s.data.countP (fun c => c == 'C' || c == 'c') :=
        countP_upper s.data 'C' 'c' (by decide) (by decide) (by decide)
      rw [hG, hC]
      rw [countP_disjoint_add _ _ s.data (by
        intro a _ hab
        rcases hab with ⟨h1, h2⟩
        simp only [Bool.or_eq_true, beq_iff_eq] at h1 h2
        rcases h1 with h1 | h1 <;> rcases h2 with h2 | h2 <;> subst h1 <;> simp at h2)]
      have hcongr : s.data.countP
            (fun a => (a == 'G' || a == 'g') || (a == 'C' || a == 'c')) =
          s.data.countP (fun c => c == 'G' || c == 'g' || c == 'C' || c == 'c') := by
        apply List.countP_congr
        intro a _
        simp only [Bool.or_eq_true, beq_iff_eq]
        tauto
      rw [hcongr]
  · show ((4 : ℕ) : ℚ) / ((4 : ℕ) : ℚ) = 1
    norm_num
  · show ((0 : ℕ) : ℚ) / ((4 : ℕ) : ℚ) = 0
    norm_num

/-- Witness for C6 at the concrete whitespace-free input "GACT". -/
theorem claim_C6_witness :
    (∀ c ∈ "GACT".data, c.isWhitespace = false) ∧
      gc_fraction "GACT" = gcSpecFormula "GACT" :=
  ⟨by decide, claim_C6.1 "GACT" (by decide)⟩

/-! ### Helper lemmas: tokenization and read-id normalization -/

theorem splitPred_ne_nil (p : Char → Bool) (l : List Char) : splitPred p l ≠ [] := by
  cases l with
  | nil => simp [splitPred]
  | cons x t =>
    simp only [splitPred]
    by_cases hx : p x
    · simp [hx]
    · simp only [hx]
      cases splitPred p t <;> simp

theorem splitPred_cons (p : Char → Bool) (x : Char) (t : List Char) :
    splitPred p (x :: t) =
      if p x then [] :: splitPred p t
      else
        match splitPred p t with
        | [] => [[x]]
        | a :: as => (x :: a) :: as := rfl

theorem wsTokens_cons_ws {x : Char} (t : List Char) (hx : x.isWhitespace = true) :
    wsTokens (x :: t) = wsTokens t := by
  unfold wsTokens
  rw [splitPred_cons, if_pos hx, List.filter_cons]
  simp

theorem wsTokens_cons_nonws {x : Char} (t : List Char) (hx : x.isWhitespace = false) :
    wsTokens (x :: t) ≠ [] := by
  unfold wsTokens
  rw [splitPred_cons, if_neg (by simp [hx])]
  rcases hr : splitPred Char.isWhitespace t with _ | ⟨a, as⟩
  · exact absurd hr (splitPred_ne_nil _ _)
  · simp [List.filter_cons]

theorem wsTokens_nil_iff (l : List Char) :
    wsTokens l = [] ↔ ∀ c ∈ l, c.isWhitespace = true := by
  induction l with
  | nil => simp [wsTokens, splitPred, List.filter_cons]
  | cons x t ih =>
    cases hx : x.isWhitespace with
    | true =>
      rw [wsTokens_cons_ws t hx, ih]
      simp [hx]
    | false =>
      constructor
      · intro h
        exact absurd h (wsTokens_cons_nonws t hx)
      · intro h
        have := h x (by simp)
        rw [hx] at this
        cases this

theorem pyStrip_of_all_ws {s : String} (h : ∀ c ∈ s.data, c.isWhitespace = true) :
    pyStrip s = "" := by
  apply String.ext
  show (((s.data.dropWhile Char.isWhitespace).reverse.dropWhile
      Char.isWhitespace).reverse) = "".data
  have h1 : s.data.dropWhile Char.isWhitespace = [] :=
    List.dropWhile_eq_nil_iff.mpr h
  rw [h1]
  rfl

theorem normalize_of_all_ws {s : String} (h : ∀ c ∈ s.data, c.isWhitespace = true) :
    normalize_read_id s = .error "IndexError" := by
  unfold normalize_read_id
  rw [pyStrip_of_all_ws h]
  rfl

theorem wsTokens_nil_iff_all (l : List Char) :
    wsTokens l = [] ↔ l.all Char.isWhitespace = true := by
  rw [wsTokens_nil_iff, List.all_eq_true]

/-- The claim's error condition for `normalize_read_id`: the input is
empty or whitespace-only after whitespace-stripping and removal of one
leading at-sign. -/
def wsOnlyAfterAt (s : String) : Bool :=
  (stripAtSign (pyStrip s).data).all Char.isWhitespace

/-! ### The FASTQ stream as four-line records -/

/-- One four-line FASTQ record (header, sequence, separator, quality),
as read by the `process_fastq` loop. -/
structure FqRec where
  h : String
  seq : String
  sep : String
  qual : String

/-- The line stream of a list of records. -/
def flatRecs (rs : List FqRec) : List String :=
  rs.flatMap (fun r => [r.h, r.seq, r.sep, r.qual])

/-- A record as it occurs in a real read-stream file and joins without
raising: the header and quality lines are non-empty (a `readline`
result at end-of-file is the only empty string) and the header line
normalizes to a read id. -/
def WFrec (r : FqRec) : Prop :=
  r.h ≠ "" ∧ r.qual ≠ "" ∧ ∃ rid, normalize_read_id r.h = .ok rid

/-- The per-record state transformer of the aggregation loop (total on
records whose header normalizes; elsewhere it returns the state
unchanged and is never reached under `WFrec`). -/
def ingestRec (read_to_taxid taxid_to_lineage : String → Option String)
    (fk : FileKey) (st : Acc) (r : FqRec) : Acc :=
  match normalize_read_id r.h with
  | .error _ => st
  | .ok rid =>
    match (read_to_taxid rid).bind taxid_to_lineage with
    | none => st
    | some lin => if lin.data.isEmpty then st else ingestHit fk lin r.seq st

theorem process_fastq_nil (r2t t2l : String → Option String) (fk : FileKey)
    (st : Acc) : process_fastq [] r2t t2l fk st = .ok st := rfl

theorem process_fastq_flat (rs : List FqRec) (L : List String)
    (r2t t2l : String → Option String) (fk : FileKey) (st : Acc)
    (hwf : ∀ r ∈ rs, WFrec r) :
    process_fastq (flatRecs rs ++ L) r2t t2l fk st =
      process_fastq L r2t t2l fk (rs.foldl (ingestRec r2t t2l fk) st) := by
  induction rs generalizing st with
  | nil => simp [flatRecs]
  | cons r rs ih =>
    obtain ⟨hh, hq, rid, hnorm⟩ := hwf r (by simp)
    have hflat : flatRecs (r :: rs) ++ L =
        r.h :: r.seq :: r.sep :: r.qual :: (flatRecs rs ++ L) := by
      simp [flatRecs]
    rw [hflat, process_fastq_cons4, if_neg hh, if_neg hq, hnorm]
    rw [List.foldl_cons]
    have heq : ingestRec r2t t2l fk st r =
        (match (r2t rid).bind t2l with
         | none => st
         | some lin => if lin.data.isEmpty then st else ingestHit fk lin r.seq st) := by
      unfold ingestRec
      rw [hnorm]
    show process_fastq (flatRecs rs ++ L) r2t t2l fk
        (match (r2t rid).bind t2l with
         | none => st
         | some lin => if lin.data.isEmpty then st else ingestHit fk lin r.seq st) = _
    rw [← heq]
    exact ih _ (fun x hx => hwf x (by simp [hx]))

/-! ### C10: partial normalization aborts the run -/

theorem loadKrakenAux_append (co : Bool) (l1 l2 : List String)
    (m : String → Option String) :
    loadKrakenAux co (l1 ++ l2) m =
      (match loadKrakenAux co l1 m with
       | .error e => .error e
       | .ok m' => loadKrakenAux co l2 m') := by
  induction l1 generalizing m with
  | nil => simp [loadKrakenAux]
  | cons line rest ih =>
    cases hk : krakenLine co m line with
    | error e => simp [loadKrakenAux, hk]
    | ok m' =>
      simp only [List.cons_append, loadKrakenAux, hk]
      exact ih m'

/-- A classification row that reaches normalization with a blank
read-header field: the line is not blank, has at least three fields,
passes the `classified_only` filter, and its field 1 is whitespace-only. -/
def badKrakenRow (co : Bool) (line : String) : Prop :=
  (pyStrip line).data.isEmpty = false ∧
  3 ≤ (pySplit '\t' (rstripNl line)).length ∧
  (co = true → (pySplit '\t' (rstripNl line)).getD 0 "" = "C") ∧
  (∀ c ∈ ((pySplit '\t' (rstripNl line)).getD 1 "").data, c.isWhitespace = true)

theorem krakenLine_bad (co : Bool) (m : String → Option String) (line : String)
    (hbad : badKrakenRow co line) :
    krakenLine co m line = .error "IndexError" := by
  obtain ⟨h1, h2, h3, h4⟩ := hbad
  unfold krakenLine
  rw [if_neg (by simp [h1])]
  rw [if_neg (by omega)]
  rw [if_neg (by
    rintro ⟨hco, hst⟩
    exact hst (h3 hco))]
  rw [normalize_of_all_ws h4]

/-- C10: `normalize_read_id` raises exactly on inputs that are empty
or whitespace-only after stripping the leading at-sign; consequently a
classification row with ≥ 3 fields, passing the classified filter,
whose read-header field is blank aborts `load_kraken_read_map`, and a
read-stream record whose (non-empty) header line is whitespace-only
aborts `process_fastq`, in both cases after any well-formed prefix. -/
theorem claim_C10 :
    (∀ s : String,
      (∃ e, normalize_read_id s = .error e) ↔ wsOnlyAfterAt s = true) ∧
    (∀ (co : Bool) (l1 l2 : List String) (line : String)
        (m : String → Option String),
      loadKrakenAux co l1 (fun _ => none) = .ok m → badKrakenRow co line →
      load_kraken_read_map (l1 ++ line :: l2) co = .error "IndexError") ∧
    (∀ (rs : List FqRec) (h s p q : String) (rest : List String)
        (r2t t2l : String → Option String) (fk : FileKey) (st : Acc),
      (∀ r ∈ rs, WFrec r) → h ≠ "" → q ≠ "" →
      (∀ c ∈ h.data, c.isWhitespace = true) →
      process_fastq (flatRecs rs ++ h :: s :: p :: q :: rest) r2t t2l fk st =
        .error "IndexError") := by
  refine ⟨?_, ?_, ?_⟩
  · intro s
    simp only [normalize_read_id, wsOnlyAfterAt]
    rw [← wsTokens_nil_iff_all]
    rcases htok : wsTokens (stripAtSign (pyStrip s).data) with _ | ⟨a, as⟩
    · exact iff_of_true ⟨"IndexError", rfl⟩ rfl
    · constructor
      · intro ⟨e, he⟩
        cases he
      · intro he
        cases he
  · intro co l1 l2 line m hok hbad
    unfold load_kraken_read_map
    rw [loadKrakenAux_append, hok]
    show loadKrakenAux co (line :: l2) m = _
    unfold loadKrakenAux
    rw [krakenLine_bad co m line hbad]
  · intro rs h s p q rest r2t t2l fk st hwf hh hq hws
    rw [process_fastq_flat rs _ r2t t2l fk st hwf]
    rw [process_fastq_cons4, if_neg hh, if_neg hq, normalize_of_all_ws hws]

/-- Witness for C10: the whitespace-only header "@ ", a concrete
aborting kraken stream, and a concrete aborting read stream. -/
theorem claim_C10_witness :
    (∃ e, normalize_read_id "@ " = .error e) ∧
    load_kraken_read_map ["C\t\t7"] false = .error "IndexError" ∧
    process_fastq [" \n", "GCAT\n", "+\n", "IIII\n"]
      (fun _ => none) (fun _ => none) .mapped initAcc = .error "IndexError" :=
  ⟨(claim_C10.1 "@ ").mpr (by decide),
   claim_C10.2.1 false [] [] "C\t\t7" (fun _ => none) rfl
     ⟨by decide, by decide, by decide, by decide⟩,
   claim_C10.2.2 [] " \n" "GCAT\n" "+\n" "IIII\n" []
     (fun _ => none) (fun _ => none) .mapped initAcc
     (by intro r hr; cases hr) (by decide) (by decide) (by decide)⟩

/-! ### C9: classified-only keys are a subset -/

theorem krakenLine_blank (co : Bool) (m : String → Option String) (line : String)
    (h : (pyStrip line).data.isEmpty = true) : krakenLine co m line = .ok m := by
  unfold krakenLine
  rw [if_pos h]

theorem krakenLine_short (co : Bool) (m : String → Option String) (line : String)
    (hb : (pyStrip line).data.isEmpty = false)
    (h : (pySplit '\t' (rstripNl line)).length < 3) : krakenLine co m line = .ok m := by
  unfold krakenLine
  rw [if_neg (by simp [hb]), if_pos h]

theorem krakenLine_skip (m : String → Option String) (line : String)
    (hb : (pyStrip line).data.isEmpty = false)
    (hlen : ¬ (pySplit '\t' (rstripNl line)).length < 3)
    (hst : (pySplit '\t' (rstripNl line)).getD 0 "" ≠ "C") :
    krakenLine true m line = .ok m := by
  unfold krakenLine
  rw [if_neg (by simp [hb]), if_neg hlen, if_pos ⟨rfl, hst⟩]

theorem krakenLine_proceed (co : Bool) (m : String → Option String) (line : String)
    (hb : (pyStrip line).data.isEmpty = false)
    (hlen : ¬ (pySplit '\t' (rstripNl line)).length < 3)
    (hco : co = false ∨ (pySplit '\t' (rstripNl line)).getD 0 "" = "C") :
    krakenLine co m line =
      (match normalize_read_id ((pySplit '\t' (rstripNl line)).getD 1 "") with
       | .error e => .error e
       | .ok read_id =>
         .ok fun r => if r = read_id then
             some ((pySplit '\t' (rstripNl line)).getD 2 "") else m r) := by
  unfold krakenLine
  rw [if_neg (by simp [hb]), if_neg hlen, if_neg (by
    rintro ⟨h1, h2⟩
    rcases hco with hco | hco
    · rw [hco] at h1
      cases h1
    · exact h2 hco)]

theorem loadKrakenAux_subset : ∀ (lines : List String)
    (mt mf mf' : String → Option String),
    (∀ r, (mt r).isSome = true → (mf r).isSome = true) →
    loadKrakenAux false lines mf = .ok mf' →
    ∃ mt', loadKrakenAux true lines mt = .ok mt' ∧
      ∀ r, (mt' r).isSome = true → (mf' r).isSome = true := by
  intro lines
  induction lines with
  | nil =>
    intro mt mf mf' hsub hok
    refine ⟨mt, rfl, ?_⟩
    injection hok with hmf
    rw [← hmf]
    exact hsub
  | cons line rest ih =>
    intro mt mf mf' hsub hok
    by_cases hb : (pyStrip line).data.isEmpty = true
    · rw [show loadKrakenAux false (line :: rest) mf =
          loadKrakenAux false rest mf by
            simp only [loadKrakenAux, krakenLine_blank false mf line hb]] at hok
      have : loadKrakenAux true (line :: rest) mt = loadKrakenAux true rest mt := by
        simp only [loadKrakenAux, krakenLine_blank true mt line hb]
      rw [this]
      exact ih mt mf mf' hsub hok
    · have hb' : (pyStrip line).data.isEmpty = false := by
        cases h : (pyStrip line).data.isEmpty
        · rfl
        · exact absurd h hb
      by_cases hlen : (pySplit '\t' (rstripNl line)).length < 3
      · rw [show loadKrakenAux false (line :: rest) mf =
            loadKrakenAux false rest mf by
              simp only [loadKrakenAux, krakenLine_short false mf line hb' hlen]] at hok
        have : loadKrakenAux true (line :: rest) mt = loadKrakenAux true rest mt := by
          simp only [loadKrakenAux, krakenLine_short true mt line hb' hlen]
        rw [this]
        exact ih mt mf mf' hsub hok
      · rcases hn : normalize_read_id ((pySplit '\t' (rstripNl line)).getD 1 "")
          with e | rid
        · exfalso
          rw [show loadKrakenAux false (line :: rest) mf = .error e by
            simp only [loadKrakenAux,
              krakenLine_proceed false mf line hb' hlen (Or.inl rfl), hn]] at hok
          cases hok
        · have hfalse : loadKrakenAux false (line :: rest) mf =
              loadKrakenAux false rest
                (fun r => if r = rid then
                  some ((pySplit '\t' (rstripNl line)).getD 2 "") else mf r) := by
            simp only [loadKrakenAux,
              krakenLine_proceed false mf line hb' hlen (Or.inl rfl), hn]
          rw [hfalse] at hok
          by_cases hst : (pySplit '\t' (rstripNl line)).getD 0 "" = "C"
          · have htrue : loadKrakenAux true (line :: rest) mt =
                loadKrakenAux true rest
                  (fun r => if r = rid then
                    some ((pySplit '\t' (rstripNl line)).getD 2 "") else mt r) := by
              simp only [loadKrakenAux,
                krakenLine_proceed true mt line hb' hlen (Or.inr hst), hn]
            rw [htrue]
            apply ih _ _ _ _ hok
            intro r hr
            by_cases hrid : r = rid
            · simp [hrid]
            · rw [if_neg hrid] at hr ⊢
              exact hsub r hr
          · have htrue : loadKrakenAux true (line :: rest) mt =
                loadKrakenAux true rest mt := by
              simp only [loadKrakenAux, krakenLine_skip mt line hb' hlen hst]
            rw [htrue]
            apply ih _ _ _ _ hok
            intro r hr
            by_cases hrid : r = rid
            · simp [hrid]
            · rw [if_neg hrid]
              exact hsub r hr

/-- C9: for every classification stream on which the unfiltered run
succeeds, the classified-only run also succeeds and its read-id key
set is a subset of the unfiltered run's key set. -/
theorem claim_C9 (lines : List String) (mf : String → Option String)
    (hok : load_kraken_read_map lines false = .ok mf) :
    ∃ mt, load_kraken_read_map lines true = .ok mt ∧
      ∀ r, (mt r).isSome = true → (mf r).isSome = true := by
  exact loadKrakenAux_subset lines _ _ mf (fun r h => by cases h) hok

/-- Witness for C9 on a concrete stream with one classified and one
unclassified row. -/
theorem claim_C9_witness :
    ∃ mf, load_kraken_read_map ["C\tr1\t7", "U\tr2\t5"] false = .ok mf ∧
      ∃ mt, load_kraken_read_map ["C\tr1\t7", "U\tr2\t5"] true = .ok mt ∧
        ∀ r, (mt r).isSome = true → (mf r).isSome = true :=
  ⟨_, rfl, claim_C9 ["C\tr1\t7", "U\tr2\t5"] _ rfl⟩

/-! ### C4/C5: the attrition-table writer -/

/-- The row the writer emits for a kept accumulator entry (assuming
its divisions succeed). -/
def rowFn (gcSum : String → ℚ) (gcN : String → Nat) (e : String × Counts3) : Row :=
  ⟨e.1, e.2.total, (e.2.mapped : ℚ) / (e.2.total : ℚ),
    (e.2.unmapped : ℚ) / (e.2.total : ℚ),
    if gcN e.1 ≠ 0 then gcSum e.1 / (gcN e.1 : ℚ) else 0⟩

theorem insertDesc_perm (e : String × Counts3) (l : List (String × Counts3)) :
    (insertDesc e l).Perm (e :: l) := by
  induction l with
  | nil => exact List.Perm.refl _
  | cons x t ih =>
    unfold insertDesc
    by_cases h : e.2.total < x.2.total
    · rw [if_pos h]
      exact (ih.cons x).trans (List.Perm.swap e x t)
    · rw [if_neg h]

theorem sortDescTotal_perm (items : List (String × Counts3)) :
    (sortDescTotal items).Perm items := by
  induction items with
  | nil => exact List.Perm.refl _
  | cons x t ih =>
    exact (insertDesc_perm x (sortDescTotal t)).trans (ih.cons x)

theorem writeRowsLoop_ok (gcSum : String → ℚ) (gcN : String → Nat) (min_reads : ℤ)
    (L : List (String × Counts3)) (hinv : ∀ e ∈ L, 1 ≤ e.2.total) :
    writeRowsLoop gcSum gcN min_reads L =
      .ok ((L.filter (fun e => !decide ((e.2.total : ℤ) < min_reads))).map
        (rowFn gcSum gcN)) := by
  induction L with
  | nil => rfl
  | cons e rest ih =>
    have htot : 1 ≤ e.2.total := hinv e (by simp)
    have hrest := ih (fun x hx => hinv x (by simp [hx]))
    rcases e with ⟨l, c⟩
    have htotc : 1 ≤ c.total := htot
    by_cases hmin : (c.total : ℤ) < min_reads
    · show writeRowsLoop gcSum gcN min_reads ((l, c) :: rest) = _
      unfold writeRowsLoop
      rw [if_pos hmin, hrest, List.filter_cons]
      simp only [hmin]
      rfl
    · show writeRowsLoop gcSum gcN min_reads ((l, c) :: rest) = _
      unfold writeRowsLoop
      rw [if_neg hmin]
      have hne : (c.total : ℚ) ≠ 0 := Nat.cast_ne_zero.mpr (by omega)
      rw [show pydiv (c.mapped : ℚ) (c.total : ℚ) = .ok ((c.mapped : ℚ) / (c.total : ℚ)) by
        unfold pydiv
        rw [if_neg hne]]
      rw [show pydiv (c.unmapped : ℚ) (c.total : ℚ) =
          .ok ((c.unmapped : ℚ) / (c.total : ℚ)) by
        unfold pydiv
        rw [if_neg hne]]
      rw [hrest, List.filter_cons]
      simp only [hmin]
      rfl

/-- C4 fails as stated: the writer does not guard the `total = 0` case
of the proportion divisions, so an accumulator entry with total 0
together with threshold 0 raises `ZeroDivisionError`. -/
theorem claim_C4_counterexample :
    write_attrition_rows [("L", zero3)] (fun _ => 0) (fun _ => 0) 0 =
      .error "ZeroDivisionError" := rfl

/-- C4 amended: the average-GC division is explicitly guarded
(returning 0 when the GC sample count is 0), and for accumulators in
which every entry has a positive total — as the aggregator guarantees
— the writer raises no division error for any threshold, including
thresholds at most 0.  (The proportion divisions themselves are not
guarded; total = 0 with threshold at most 0 raises, see the
counterexample.) -/
theorem claim_C4 (items : List (String × Counts3)) (gcSum : String → ℚ)
    (gcN : String → Nat) (min_reads : ℤ)
    (hinv : ∀ e ∈ items, 1 ≤ e.2.total) :
    ∃ rows, write_attrition_rows items gcSum gcN min_reads = .ok rows ∧
      ∀ r ∈ rows, r.avg = if gcN r.lin = 0 then 0 else gcSum r.lin / (gcN r.lin : ℚ) := by
  have hinv' : ∀ e ∈ sortDescTotal items, 1 ≤ e.2.total := by
    intro e he
    exact hinv e ((sortDescTotal_perm items).mem_iff.mp he)
  refine ⟨_, writeRowsLoop_ok gcSum gcN min_reads _ hinv', ?_⟩
  intro r hr
  rw [List.mem_map] at hr
  obtain ⟨e, _, he⟩ := hr
  rw [← he]
  show (if gcN e.1 ≠ 0 then gcSum e.1 / (gcN e.1 : ℚ) else 0) =
    if gcN e.1 = 0 then 0 else gcSum e.1 / (gcN e.1 : ℚ)
  by_cases h : gcN e.1 = 0 <;> simp [h]

/-- Witness for the amended C4 on a concrete accumulator with
positive totals and a negative threshold. -/
theorem claim_C4_witness :
    ∃ rows, write_attrition_rows [("A", ⟨2, 1, 1⟩)] (fun _ => 1) (fun _ => 2) (-3) =
        .ok rows ∧
      ∀ r ∈ rows, r.avg = if (fun (_ : String) => 2) r.lin = 0 then 0
        else (fun (_ : String) => (1 : ℚ)) r.lin / (((fun (_ : String) => 2) r.lin : ℕ) : ℚ) :=
  claim_C4 [("A", ⟨2, 1, 1⟩)] (fun _ => 1) (fun _ => 2) (-3)
    (by intro e he; rw [List.mem_singleton] at he; subst he; decide)

theorem insertDesc_mem {x e : String × Counts3} {l : List (String × Counts3)}
    (h : x ∈ insertDesc e l) : x = e ∨ x ∈ l :=
  List.mem_cons.mp ((insertDesc_perm e l).mem_iff.mp h)

theorem insertDesc_pairwise (e : String × Counts3) (l : List (String × Counts3))
    (h : l.Pairwise (fun a b => b.2.total ≤ a.2.total)) :
    (insertDesc e l).Pairwise (fun a b => b.2.total ≤ a.2.total) := by
  induction l with
  | nil => simp [insertDesc]
  | cons x t ih =>
    rw [List.pairwise_cons] at h
    obtain ⟨hx, ht⟩ := h
    unfold insertDesc
    by_cases hcmp : e.2.total < x.2.total
    · rw [if_pos hcmp]
      rw [List.pairwise_cons]
      refine ⟨?_, ih ht⟩
      intro b hb
      rcases insertDesc_mem hb with hb | hb
      · rw [hb]
        omega
      · exact hx b hb
    · rw [if_neg hcmp]
      rw [List.pairwise_cons]
      refine ⟨?_, List.pairwise_cons.mpr ⟨hx, ht⟩⟩
      intro b hb
      rcases List.mem_cons.mp hb with hb | hb
      · rw [hb]
        omega
      · have := hx b hb
        omega

theorem sortDescTotal_pairwise (items : List (String × Counts3)) :
    (sortDescTotal items).Pairwise (fun a b => b.2.total ≤ a.2.total) := by
  induction items with
  | nil => exact List.Pairwise.nil
  | cons x t ih => exact insertDesc_pairwise x (sortDescTotal t) ih

theorem insertDesc_filter_total (e : String × Counts3)
    (l : List (String × Counts3)) (k : Nat) :
    (insertDesc e l).filter (fun x => x.2.total == k) =
      if e.2.total = k then e :: l.filter (fun x => x.2.total == k)
      else l.filter (fun x => x.2.total == k) := by
  induction l with
  | nil =>
    show List.filter (fun x => x.2.total == k) [e] = _
    by_cases hek : e.2.total = k
    · rw [if_pos hek]
      simp [List.filter_cons, hek]
    · rw [if_neg hek]
      simp [List.filter_cons, hek]
  | cons x t ih =>
    unfold insertDesc
    by_cases hcmp : e.2.total < x.2.total
    · rw [if_pos hcmp, List.filter_cons, ih]
      by_cases hek : e.2.total = k
      · have hxk : (x.2.total == k) = false := by
          simp only [beq_eq_false_iff_ne, ne_eq]
          omega
        rw [if_pos hek, if_pos hek, List.filter_cons, hxk]
        simp
      · rw [if_neg hek, if_neg hek, List.filter_cons]
    · rw [if_neg hcmp, List.filter_cons]
      by_cases hek : e.2.total = k
      · rw [if_pos hek]
        simp only [hek, beq_self_eq_true, if_true]
      · rw [if_neg hek]
        have hek' : (e.2.total == k) = false := by
          simp only [beq_eq_false_iff_ne, ne_eq]
          exact hek
        rw [hek']
        rfl

theorem sortDescTotal_filter_total (items : List (String × Counts3)) (k : Nat) :
    (sortDescTotal items).filter (fun x => x.2.total == k) =
      items.filter (fun x => x.2.total == k) := by
  induction items with
  | nil => rfl
  | cons x t ih =>
    show (insertDesc x (sortDescTotal t)).filter _ = _
    rw [insertDesc_filter_total, List.filter_cons]
    by_cases hxk : x.2.total = k
    · rw [if_pos hxk, ih]
      simp [hxk]
    · rw [if_neg hxk, ih]
      have : (x.2.total == k) = false := by
        simp only [beq_eq_false_iff_ne, ne_eq]
        exact hxk
      rw [this]
      simp

theorem nodup_key_unique {items : List (String × Counts3)} {l : String}
    {c1 c2 : Counts3} (hnd : (items.map Prod.fst).Nodup)
    (h1 : (l, c1) ∈ items) (h2 : (l, c2) ∈ items) : c1 = c2 := by
  induction items with
  | nil => cases h1
  | cons x t ih =>
    rw [List.map_cons, List.nodup_cons] at hnd
    obtain ⟨hx, ht⟩ := hnd
    rcases List.mem_cons.mp h1 with h1 | h1 <;> rcases List.mem_cons.mp h2 with h2 | h2
    · exact congrArg Prod.snd (h1.trans h2.symm)
    · exfalso
      apply hx
      rw [show x.1 = l by rw [← h1]]
      exact List.mem_map.mpr ⟨(l, c2), h2, rfl⟩
    · exfalso
      apply hx
      rw [show x.1 = l by rw [← h2]]
      exact List.mem_map.mpr ⟨(l, c1), h1, rfl⟩
    · exact ih ht h1 h2

/-- C5: for every finalized accumulator satisfying the aggregator's
invariant (distinct keys, total = mapped + unmapped, total ≥ 1) and
every threshold, the writer succeeds and emits exactly the lineages
with total ≥ threshold, in non-increasing total order, stable within
equal totals with respect to the accumulator order, each row carrying
total, mapped/total, unmapped/total and the guarded GC average, with
both proportions in [0, 1]. -/
theorem claim_C5 (items : List (String × Counts3)) (gcSum : String → ℚ)
    (gcN : String → Nat) (min_reads : ℤ)
    (hnd : (items.map Prod.fst).Nodup)
    (hinv : ∀ e ∈ items, e.2.total = e.2.mapped + e.2.unmapped ∧ 1 ≤ e.2.total) :
    ∃ rows, write_attrition_rows items gcSum gcN min_reads = .ok rows ∧
      (∀ l c, (l, c) ∈ items →
        (min_reads ≤ (c.total : ℤ) ↔ ∃ r ∈ rows, r.lin = l)) ∧
      rows.Pairwise (fun a b => b.tot ≤ a.tot) ∧
      (∀ k : Nat, (rows.filter (fun r => r.tot == k)).map Row.lin =
        ((items.filter (fun e => e.2.total == k)).filter
          (fun e => !decide ((e.2.total : ℤ) < min_reads))).map Prod.fst) ∧
      (∀ r ∈ rows, ∃ c, (r.lin, c) ∈ items ∧ r.tot = c.total ∧
        r.mprop = (c.mapped : ℚ) / (c.total : ℚ) ∧
        r.uprop = (c.unmapped : ℚ) / (c.total : ℚ) ∧
        r.avg = (if gcN r.lin = 0 then 0 else gcSum r.lin / (gcN r.lin : ℚ)) ∧
        0 ≤ r.mprop ∧ r.mprop ≤ 1 ∧ 0 ≤ r.uprop ∧ r.uprop ≤ 1) := by
  have hinv' : ∀ e ∈ sortDescTotal items, 1 ≤ e.2.total := by
    intro e he
    exact (hinv e ((sortDescTotal_perm items).mem_iff.mp he)).2
  refine ⟨_, writeRowsLoop_ok gcSum gcN min_reads _ hinv', ?_, ?_, ?_, ?_⟩
  · intro l c hmem
    constructor
    · intro hge
      refine ⟨rowFn gcSum gcN (l, c), ?_, rfl⟩
      apply List.mem_map.mpr
      refine ⟨(l, c), ?_, rfl⟩
      apply List.mem_filter.mpr
      refine ⟨(sortDescTotal_perm items).mem_iff.mpr hmem, ?_⟩
      simp only [Bool.not_eq_eq_eq_not, Bool.not_true, decide_eq_false_iff_not,
        not_lt]
      exact hge
    · intro ⟨r, hr, hrl⟩
      obtain ⟨e, hef, hre⟩ := List.mem_map.mp hr
      obtain ⟨hes, hekeep⟩ := List.mem_filter.mp hef
      have heitems : e ∈ items := (sortDescTotal_perm items).mem_iff.mp hes
      have hel : e.1 = l := by
        rw [← hrl, ← hre]
        rfl
      have hec : e.2 = c := by
        apply nodup_key_unique hnd _ hmem
        rw [← hel]
        exact heitems
      simp only [Bool.not_eq_eq_eq_not, Bool.not_true, decide_eq_false_iff_not,
        not_lt] at hekeep
      rw [← hec]
      exact hekeep
  · rw [List.pairwise_map]
    apply List.Pairwise.filter
    have := sortDescTotal_pairwise items
    exact this.imp (fun h => h)
  · intro k
    rw [List.filter_map, List.map_map]
    have hpred : ((sortDescTotal items).filter
          (fun e => !decide ((e.2.total : ℤ) < min_reads))).filter
          ((fun r => r.tot == k) ∘ rowFn gcSum gcN) =
        ((sortDescTotal items).filter
          (fun e => !decide ((e.2.total : ℤ) < min_reads))).filter
          (fun e => e.2.total == k) := by
      apply List.filter_congr
      intro a _
      rfl
    rw [hpred, List.filter_comm, sortDescTotal_filter_total]
    apply List.map_congr_left
    intro a _
    rfl
  · intro r hr
    obtain ⟨e, hef, hre⟩ := List.mem_map.mp hr
    obtain ⟨hes, _⟩ := List.mem_filter.mp hef
    have heitems : e ∈ items := (sortDescTotal_perm items).mem_iff.mp hes
    obtain ⟨hsum, htot⟩ := hinv e heitems
    have htotpos : (0 : ℚ) < (e.2.total : ℚ) := by
      exact_mod_cast Nat.lt_of_lt_of_le Nat.zero_lt_one htot
    refine ⟨e.2, ?_, ?_, ?_, ?_, ?_, ?_, ?_, ?_, ?_⟩
    · rw [← hre]
      show (e.1, e.2) ∈ items
      rcases e with ⟨l, c⟩
      exact heitems
    · rw [← hre]
      rfl
    · rw [← hre]
      rfl
    · rw [← hre]
      rfl
    · rw [← hre]
      show (if gcN e.1 ≠ 0 then gcSum e.1 / (gcN e.1 : ℚ) else 0) =
        if gcN e.1 = 0 then 0 else gcSum e.1 / (gcN e.1 : ℚ)
      by_cases h : gcN e.1 = 0 <;> simp [h]
    · rw [← hre]
      show (0 : ℚ) ≤ (e.2.mapped : ℚ) / (e.2.total : ℚ)
      apply div_nonneg (by positivity) (le_of_lt htotpos)
    · rw [← hre]
      show (e.2.mapped : ℚ) / (e.2.total : ℚ) ≤ 1
      rw [div_le_one htotpos]
      exact_mod_cast Nat.le.intro hsum.symm
    · rw [← hre]
      show (0 : ℚ) ≤ (e.2.unmapped : ℚ) / (e.2.total : ℚ)
      apply div_nonneg (by positivity) (le_of_lt htotpos)
    · rw [← hre]
      show (e.2.unmapped : ℚ) / (e.2.total : ℚ) ≤ 1
      rw [div_le_one htotpos]
      have : e.2.unmapped ≤ e.2.total := by omega
      exact_mod_cast this

/-- Witness for C5 on the spec's round-trip example with threshold 2
(lineage B is filtered out). -/
theorem claim_C5_witness :
    ∃ rows, write_attrition_rows [("A", ⟨4, 3, 1⟩), ("B", ⟨1, 1, 0⟩)]
        (fun _ => 11/5) (fun _ => 4) 2 = .ok rows ∧
      (∀ l c, (l, c) ∈ [("A", (⟨4, 3, 1⟩ : Counts3)), ("B", ⟨1, 1, 0⟩)] →
        (2 ≤ (c.total : ℤ) ↔ ∃ r ∈ rows, r.lin = l)) ∧
      rows.Pairwise (fun a b => b.tot ≤ a.tot) ∧
      (∀ k : Nat, (rows.filter (fun r => r.tot == k)).map Row.lin =
        (([("A", (⟨4, 3, 1⟩ : Counts3)), ("B", ⟨1, 1, 0⟩)].filter
            (fun e => e.2.total == k)).filter
          (fun e => !decide ((e.2.total : ℤ) < 2))).map Prod.fst) ∧
      (∀ r ∈ rows, ∃ c, (r.lin, c) ∈ [("A", (⟨4, 3, 1⟩ : Counts3)), ("B", ⟨1, 1, 0⟩)] ∧
        r.tot = c.total ∧
        r.mprop = (c.mapped : ℚ) / (c.total : ℚ) ∧
        r.uprop = (c.unmapped : ℚ) / (c.total : ℚ) ∧
        r.avg = (if (fun (_ : String) => 4) r.lin = 0 then 0
          else (fun (_ : String) => (11/5 : ℚ)) r.lin /
            (((fun (_ : String) => 4) r.lin : ℕ) : ℚ)) ∧
        0 ≤ r.mprop ∧ r.mprop ≤ 1 ∧ 0 ≤ r.uprop ∧ r.uprop ≤ 1) :=
  claim_C5 [("A", ⟨4, 3, 1⟩), ("B", ⟨1, 1, 0⟩)] (fun _ => 11/5) (fun _ => 4) 2
    (by decide)
    (by intro e he
        rcases List.mem_cons.mp he with h | h
        · subst h
          exact ⟨by decide, by decide⟩
        · rcases List.mem_cons.mp h with h2 | h2
          · subst h2
            exact ⟨by decide, by decide⟩
          · cases h2)

/-! ### C3: the accumulator invariant -/

/-- The accumulator invariant: every registered lineage key has
total = mapped + unmapped, a GC sample count equal to its total, and a
total of at least 1 (counts are naturals, hence non-negative); keys
never registered still hold the defaultdict defaults. -/
def accInv (st : Acc) : Prop :=
  (∀ l ∈ st.keys,
    (st.counts l).total = (st.counts l).mapped + (st.counts l).unmapped ∧
    st.gc_n l = (st.counts l).total ∧ 1 ≤ (st.counts l).total) ∧
  (∀ l, l ∉ st.keys → st.counts l = zero3 ∧ st.gc_n l = 0)

theorem mem_keys_ingestHit (fk : FileKey) (lin seq : String) (st : Acc) :
    lin ∈ (ingestHit fk lin seq st).keys := by
  show lin ∈ (if lin ∈ st.keys then st.keys else st.keys ++ [lin])
  by_cases h : lin ∈ st.keys
  · rw [if_pos h]
    exact h
  · rw [if_neg h]
    simp

theorem accInv_ingestHit (fk : FileKey) (lin seq : String) (st : Acc)
    (hst : accInv st) : accInv (ingestHit fk lin seq st) := by
  obtain ⟨hpres, habs⟩ := hst
  have hold : (st.counts lin).total = (st.counts lin).mapped + (st.counts lin).unmapped ∧
      st.gc_n lin = (st.counts lin).total := by
    by_cases h : lin ∈ st.keys
    · exact ⟨(hpres lin h).1, (hpres lin h).2.1⟩
    · obtain ⟨hc, hg⟩ := habs lin h
      rw [hc, hg]
      exact ⟨rfl, rfl⟩
  constructor
  · intro l hl
    by_cases hll : l = lin
    · subst hll
      have hc : (ingestHit fk l seq st).counts l =
          bumpKey fk { st.counts l with total := (st.counts l).total + 1 } := by
        show (if l = l then bumpKey fk { st.counts l with total := (st.counts l).total + 1 }
          else st.counts l) = _
        rw [if_pos rfl]
      have hg : (ingestHit fk l seq st).gc_n l = st.gc_n l + 1 := by
        show (if l = l then st.gc_n l + 1 else st.gc_n l) = _
        rw [if_pos rfl]
      rw [hc, hg]
      obtain ⟨h1, h2⟩ := hold
      cases fk <;> simp only [bumpKey] <;> exact ⟨by omega, by omega, by omega⟩
    · have hc : (ingestHit fk lin seq st).counts l = st.counts l := by
        show (if l = lin then _ else st.counts l) = _
        rw [if_neg hll]
      have hg : (ingestHit fk lin seq st).gc_n l = st.gc_n l := by
        show (if l = lin then _ else st.gc_n l) = _
        rw [if_neg hll]
      rw [hc, hg]
      apply hpres
      have hl' : l ∈ (if lin ∈ st.keys then st.keys else st.keys ++ [lin]) := hl
      by_cases hk : lin ∈ st.keys
      · rw [if_pos hk] at hl'
        exact hl'
      · rw [if_neg hk] at hl'
        rcases List.mem_append.mp hl' with h | h
        · exact h
        · exact absurd (List.mem_singleton.mp h) hll
  · intro l hl
    have hll : l ≠ lin := by
      intro h
      rw [h] at hl
      exact hl (mem_keys_ingestHit fk lin seq st)
    have hlk : l ∉ st.keys := by
      intro h
      apply hl
      show l ∈ (if lin ∈ st.keys then st.keys else st.keys ++ [lin])
      by_cases hk : lin ∈ st.keys
      · rw [if_pos hk]
        exact h
      · rw [if_neg hk]
        exact List.mem_append.mpr (Or.inl h)
    have hc : (ingestHit fk lin seq st).counts l = st.counts l := by
      show (if l = lin then _ else st.counts l) = _
      rw [if_neg hll]
    have hg : (ingestHit fk lin seq st).gc_n l = st.gc_n l := by
      show (if l = lin then _ else st.gc_n l) = _
      rw [if_neg hll]
    rw [hc, hg]
    exact habs l hlk

/-- Any property preserved by `ingestHit` and holding at the start
holds at the end of any successful `process_fastq` pass. -/
theorem process_fastq_preserve {P : Acc → Prop}
    (hP : ∀ fk lin seq st, P st → P (ingestHit fk lin seq st)) :
    ∀ (n : Nat) (lines : List String), lines.length ≤ n →
    ∀ (r2t t2l : String → Option String) (fk : FileKey) (st st' : Acc),
      P st → process_fastq lines r2t t2l fk st = .ok st' → P st' := by
  intro n
  induction n with
  | zero =>
    intro lines hlen r2t t2l fk st st' hst hrun
    have : lines = [] := List.length_eq_zero.mp (Nat.le_zero.mp hlen)
    subst this
    rw [process_fastq_nil] at hrun
    injection hrun with h
    rw [← h]
    exact hst
  | succ n ih =>
    intro lines hlen r2t t2l fk st st' hst hrun
    rcases lines with _ | ⟨h, _ | ⟨s, _ | ⟨p, _ | ⟨q, rest⟩⟩⟩⟩
    case nil =>
      rw [process_fastq_nil] at hrun
      injection hrun with heq
      rw [← heq]
      exact hst
    case cons.nil =>
      rw [process_fastq_short _ _ _ _ _ (by simp)] at hrun
      injection hrun with heq
      rw [← heq]
      exact hst
    case cons.cons.nil =>
      rw [process_fastq_short _ _ _ _ _ (by simp)] at hrun
      injection hrun with heq
      rw [← heq]
      exact hst
    case cons.cons.cons.nil =>
      rw [process_fastq_short _ _ _ _ _ (by simp)] at hrun
      injection hrun with heq
      rw [← heq]
      exact hst
    case cons.cons.cons.cons =>
      rw [process_fastq_cons4] at hrun
      by_cases hh : h = ""
      · rw [if_pos hh] at hrun
        injection hrun with heq
        rw [← heq]
        exact hst
      · rw [if_neg hh] at hrun
        by_cases hq : q = ""
        · rw [if_pos hq] at hrun
          injection hrun with heq
          rw [← heq]
          exact hst
        · rw [if_neg hq] at hrun
          rcases hnorm : normalize_read_id h with e | rid
          · simp only [hnorm] at hrun
            cases hrun
          · simp only [hnorm] at hrun
            have hlen' : rest.length ≤ n := by
              simp only [List.length_cons] at hlen
              omega
            rcases hj : (r2t rid).bind t2l with _ | lin
            · simp only [hj] at hrun
              exact ih rest hlen' r2t t2l fk st st' hst hrun
            · simp only [hj] at hrun
              by_cases hemp : lin.data.isEmpty = true
              · rw [if_pos hemp] at hrun
                exact ih rest hlen' r2t t2l fk st st' hst hrun
              · rw [if_neg hemp] at hrun
                exact ih rest hlen' r2t t2l fk _ st'
                  (hP fk lin s st hst) hrun

/-- C3: the accumulator invariant — total = mapped + unmapped,
GC sample count = total ≥ 1 for every registered key (counts are
naturals, hence non-negative) — holds for the empty accumulator and is
preserved by every successful aggregator pass, hence after any
sequence of passes. -/
theorem claim_C3 :
    accInv initAcc ∧
    ∀ (lines : List String) (r2t t2l : String → Option String)
      (fk : FileKey) (st st' : Acc),
      accInv st → process_fastq lines r2t t2l fk st = .ok st' → accInv st' := by
  constructor
  · constructor
    · intro l hl
      cases hl
    · intro l _
      exact ⟨rfl, rfl⟩
  · intro lines r2t t2l fk st st' hst hrun
    exact process_fastq_preserve accInv_ingestHit lines.length lines le_rfl
      r2t t2l fk st st' hst hrun

/-- Witness for C3: a mapped pass over one concrete record followed by
an unmapped pass over another, from the empty accumulator. -/
theorem claim_C3_witness :
    ∃ s1 s2 : Acc,
      process_fastq ["@a1\n", "GCAT\n", "+\n", "IIII\n"]
        (fun r => if r = "a1" ∨ r = "a2" then some "7" else none)
        (fun t => if t = "7" then some "g__X" else none) .mapped initAcc = .ok s1 ∧
      process_fastq ["@a2\n", "GGGG\n", "+\n", "IIII\n"]
        (fun r => if r = "a1" ∨ r = "a2" then some "7" else none)
        (fun t => if t = "7" then some "g__X" else none) .unmapped s1 = .ok s2 ∧
      accInv s2 := by
  have h1 := claim_C3.2 ["@a1\n", "GCAT\n", "+\n", "IIII\n"]
    (fun r => if r = "a1" ∨ r = "a2" then some "7" else none)
    (fun t => if t = "7" then some "g__X" else none) .mapped initAcc _ claim_C3.1 rfl
  have h2 := claim_C3.2 ["@a2\n", "GGGG\n", "+\n", "IIII\n"]
    (fun r => if r = "a1" ∨ r = "a2" then some "7" else none)
    (fun t => if t = "7" then some "g__X" else none) .unmapped _ _ h1 rfl
  exact ⟨_, _, rfl, rfl, h2⟩

/-! ### C2: order-independence of the aggregator -/

/-- The two sequential aggregator passes of `write_attrition_csv`
(mapped then unmapped), sharing one accumulator. -/
def runTwoPasses (read_to_taxid taxid_to_lineage : String → Option String)
    (mappedLines unmappedLines : List String) : Except String Acc :=
  match process_fastq mappedLines read_to_taxid taxid_to_lineage .mapped initAcc with
  | .error e => .error e
  | .ok s1 => process_fastq unmappedLines read_to_taxid taxid_to_lineage .unmapped s1

/-- The projection of the accumulator observed by the claim: the three
per-lineage maps, without the key-insertion order. -/
structure PSt where
  counts : String → Counts3
  gc_sum : String → ℚ
  gc_n : String → Nat

theorem PSt.ext {p q : PSt} (h1 : p.counts = q.counts) (h2 : p.gc_sum = q.gc_sum)
    (h3 : p.gc_n = q.gc_n) : p = q := by
  cases p
  cases q
  cases h1
  cases h2
  cases h3
  rfl

/-- Projection of the full accumulator state. -/
def projAcc (st : Acc) : PSt := ⟨st.counts, st.gc_sum, st.gc_n⟩

/-- The effect a record has on the accumulator, if any: the lineage it
joins to and its GC fraction. -/
def recEffect (read_to_taxid taxid_to_lineage : String → Option String)
    (r : FqRec) : Option (String × ℚ) :=
  match normalize_read_id r.h with
  | .error _ => none
  | .ok rid =>
    match (read_to_taxid rid).bind taxid_to_lineage with
    | none => none
    | some lin => if lin.data.isEmpty then none else some (lin, gc_fraction r.seq)

/-- Point update of a map at one key. -/
def updateAt {V : Type} (l : String) (f : V → V) (m : String → V) : String → V :=
  fun x => if x = l then f (m l) else m x

theorem updateAt_comm {V : Type} (l1 l2 : String) (f g : V → V) (m : String → V)
    (hfg : ∀ v, f (g v) = g (f v)) :
    updateAt l1 f (updateAt l2 g m) = updateAt l2 g (updateAt l1 f m) := by
  funext x
  unfold updateAt
  by_cases h12 : l1 = l2
  · subst h12
    by_cases h1 : x = l1
    · subst h1
      simp [hfg]
    · simp [h1]
  · have h21 : ¬l2 = l1 := fun h => h12 h.symm
    by_cases h1 : x = l1 <;> by_cases h2 : x = l2
    · exact absurd (h1.symm.trans h2) h12
    · subst h1
      simp [h2, h12]
    · subst h2
      simp [h1, h21]
    · simp [h1, h2]

/-- Apply one record hit to the projected state. -/
def bumpP (fk : FileKey) (lin : String) (g : ℚ) (p : PSt) : PSt :=
  ⟨updateAt lin (fun c => bumpKey fk { c with total := c.total + 1 }) p.counts,
   updateAt lin (fun v => v + g) p.gc_sum,
   updateAt lin (fun v => v + 1) p.gc_n⟩

/-- The projected per-record step. -/
def pstep (read_to_taxid taxid_to_lineage : String → Option String) (fk : FileKey)
    (p : PSt) (r : FqRec) : PSt :=
  match recEffect read_to_taxid taxid_to_lineage r with
  | none => p
  | some (lin, g) => bumpP fk lin g p

theorem proj_ingestHit (fk : FileKey) (lin seq : String) (st : Acc) :
    projAcc (ingestHit fk lin seq st) = bumpP fk lin (gc_fraction seq) (projAcc st) := rfl

theorem proj_ingestRec (r2t t2l : String → Option String) (fk : FileKey)
    (st : Acc) (r : FqRec) :
    projAcc (ingestRec r2t t2l fk st r) = pstep r2t t2l fk (projAcc st) r := by
  unfold ingestRec pstep recEffect
  rcases hn : normalize_read_id r.h with e | rid
  · simp only [hn]
  · simp only [hn]
    rcases hj : (r2t rid).bind t2l with _ | lin
    · simp only [hj]
    · simp only [hj]
      by_cases hemp : lin.data.isEmpty = true
      · rw [if_pos hemp, if_pos hemp]
      · rw [if_neg hemp, if_neg hemp]
        exact proj_ingestHit fk lin r.seq st

theorem proj_foldl (r2t t2l : String → Option String) (fk : FileKey)
    (st : Acc) (rs : List FqRec) :
    projAcc (rs.foldl (ingestRec r2t t2l fk) st) =
      rs.foldl (pstep r2t t2l fk) (projAcc st) := by
  induction rs generalizing st with
  | nil => rfl
  | cons r rs ih =>
    rw [List.foldl_cons, List.foldl_cons, ih, proj_ingestRec]

theorem bumpP_comm (fk : FileKey) (l1 l2 : String) (g1 g2 : ℚ) (p : PSt) :
    bumpP fk l1 g1 (bumpP fk l2 g2 p) = bumpP fk l2 g2 (bumpP fk l1 g1 p) := by
  apply PSt.ext
  · exact updateAt_comm l1 l2 (fun c => bumpKey fk { c with total := c.total + 1 })
      (fun c => bumpKey fk { c with total := c.total + 1 }) p.counts (fun v => rfl)
  · exact updateAt_comm l1 l2 (fun v => v + g1) (fun v => v + g2) p.gc_sum
      (fun v => add_right_comm v g2 g1)
  · exact updateAt_comm l1 l2 (fun v => v + 1) (fun v => v + 1) p.gc_n (fun v => rfl)

theorem pstep_comm (r2t t2l : String → Option String) (fk : FileKey)
    (p : PSt) (r1 r2 : FqRec) :
    pstep r2t t2l fk (pstep r2t t2l fk p r1) r2 =
      pstep r2t t2l fk (pstep r2t t2l fk p r2) r1 := by
  unfold pstep
  rcases recEffect r2t t2l r1 with _ | ⟨l1, g1⟩ <;>
    rcases recEffect r2t t2l r2 with _ | ⟨l2, g2⟩
  · rfl
  · rfl
  · rfl
  · show bumpP fk l2 g2 (bumpP fk l1 g1 p) = bumpP fk l1 g1 (bumpP fk l2 g2 p)
    exact bumpP_comm fk l2 l1 g2 g1 p

theorem foldl_perm_of_comm {α β : Type} (f : β → α → β)
    (hcomm : ∀ b a1 a2, f (f b a1) a2 = f (f b a2) a1)
    {l1 l2 : List α} (hp : l1.Perm l2) : ∀ b, l1.foldl f b = l2.foldl f b := by
  induction hp with
  | nil => intro b; rfl
  | cons x _ ih =>
    intro b
    rw [List.foldl_cons, List.foldl_cons, ih]
  | swap x y l =>
    intro b
    rw [List.foldl_cons, List.foldl_cons, List.foldl_cons, List.foldl_cons, hcomm]
  | trans _ _ ih1 ih2 =>
    intro b
    rw [ih1, ih2]

/-- C2: permuting the four-line records within either read-stream file
leaves the final per-lineage accumulator state unchanged: totals,
mapped and unmapped counts, GC sums (exact rationals, i.e., up to
floating-point reordering) and GC sample counts agree pointwise. -/
theorem claim_C2 (r2t t2l : String → Option String)
    (rs1 rs1' rs2 rs2' : List FqRec)
    (hp1 : rs1.Perm rs1') (hp2 : rs2.Perm rs2')
    (hwf1 : ∀ r ∈ rs1, WFrec r) (hwf2 : ∀ r ∈ rs2, WFrec r) :
    ∃ s s', runTwoPasses r2t t2l (flatRecs rs1) (flatRecs rs2) = .ok s ∧
      runTwoPasses r2t t2l (flatRecs rs1') (flatRecs rs2') = .ok s' ∧
      ∀ lin, s.counts lin = s'.counts lin ∧ s.gc_sum lin = s'.gc_sum lin ∧
        s.gc_n lin = s'.gc_n lin := by
  have hwf1' : ∀ r ∈ rs1', WFrec r := fun r hr => hwf1 r (hp1.mem_iff.mpr hr)
  have hwf2' : ∀ r ∈ rs2', WFrec r := fun r hr => hwf2 r (hp2.mem_iff.mpr hr)
  have run1 : ∀ (rs ru : List FqRec), (∀ r ∈ rs, WFrec r) → (∀ r ∈ ru, WFrec r) →
      runTwoPasses r2t t2l (flatRecs rs) (flatRecs ru) =
        .ok (ru.foldl (ingestRec r2t t2l .unmapped)
          (rs.foldl (ingestRec r2t t2l .mapped) initAcc)) := by
    intro rs ru hwa hwb
    unfold runTwoPasses
    have h1 : process_fastq (flatRecs rs) r2t t2l .mapped initAcc =
        .ok (rs.foldl (ingestRec r2t t2l .mapped) initAcc) := by
      have := process_fastq_flat rs [] r2t t2l .mapped initAcc hwa
      rw [List.append_nil] at this
      rw [this, process_fastq_nil]
    simp only [h1]
    have := process_fastq_flat ru [] r2t t2l .unmapped
      (rs.foldl (ingestRec r2t t2l .mapped) initAcc) hwb
    rw [List.append_nil] at this
    rw [this, process_fastq_nil]
  refine ⟨_, _, run1 rs1 rs2 hwf1 hwf2, run1 rs1' rs2' hwf1' hwf2', ?_⟩
  have hproj : projAcc (rs2.foldl (ingestRec r2t t2l .unmapped)
        (rs1.foldl (ingestRec r2t t2l .mapped) initAcc)) =
      projAcc (rs2'.foldl (ingestRec r2t t2l .unmapped)
        (rs1'.foldl (ingestRec r2t t2l .mapped) initAcc)) := by
    rw [proj_foldl, proj_foldl, proj_foldl, proj_foldl]
    rw [foldl_perm_of_comm _ (pstep_comm r2t t2l .mapped) hp1 (projAcc initAcc)]
    exact foldl_perm_of_comm _ (pstep_comm r2t t2l .unmapped) hp2 _
  intro lin
  refine ⟨?_, ?_, ?_⟩
  · exact congrFun (congrArg PSt.counts hproj) lin
  · exact congrFun (congrArg PSt.gc_sum hproj) lin
  · exact congrFun (congrArg PSt.gc_n hproj) lin

/-- The concrete records and maps of the C2 witness. -/
def wrecA : FqRec := ⟨"@a1\n", "GCAT\n", "+\n", "IIII\n"⟩

/-- Second C2 witness record. -/
def wrecB : FqRec := ⟨"@b1\n", "GGGG\n", "+\n", "IIII\n"⟩

/-- Unmapped-pass C2 witness record. -/
def wrecC : FqRec := ⟨"@c1\n", "ATAT\n", "+\n", "IIII\n"⟩

/-- C2 witness read→taxid map. -/
def wr2t : String → Option String :=
  fun r => if r = "a1" ∨ r = "b1" ∨ r = "c1" then some "7" else none

/-- C2 witness taxid→lineage map. -/
def wt2l : String → Option String := fun t => if t = "7" then some "g__X" else none

/-- Witness for C2: two concrete mapped records swapped, with a
one-record unmapped stream. -/
theorem claim_C2_witness :
    ∃ s s', runTwoPasses wr2t wt2l (flatRecs [wrecA, wrecB]) (flatRecs [wrecC]) = .ok s ∧
      runTwoPasses wr2t wt2l (flatRecs [wrecB, wrecA]) (flatRecs [wrecC]) = .ok s' ∧
      ∀ lin, s.counts lin = s'.counts lin ∧ s.gc_sum lin = s'.gc_sum lin ∧
        s.gc_n lin = s'.gc_n lin := by
  have hwf : ∀ r ∈ [wrecA, wrecB], WFrec r := by
    intro r hr
    rcases List.mem_cons.mp hr with h | h
    · subst h
      exact ⟨by decide, by decide, "a1", by rfl⟩
    · rcases List.mem_cons.mp h with h2 | h2
      · subst h2
        exact ⟨by decide, by decide, "b1", by rfl⟩
      · cases h2
  have hwfc : ∀ r ∈ [wrecC], WFrec r := by
    intro r hr
    rcases List.mem_cons.mp hr with h | h
    · subst h
      exact ⟨by decide, by decide, "c1", by rfl⟩
    · cases h
  exact claim_C2 wr2t wt2l [wrecA, wrecB] [wrecB, wrecA] [wrecC] [wrecC]
    (List.Perm.swap wrecB wrecA []) (List.Perm.refl _) hwf hwfc

/-! ### C7/C8: the reference cache -/

/-- Decimal digit value of a digit character. -/
def digitVal (c : Char) : Nat := c.toNat - 48

/-- Value of a little-endian digit list. -/
def valRev : List Char → Nat
  | [] => 0
  | d :: t => digitVal d + 10 * valRev t

theorem digitVal_digitCh (d : Nat) (h : d < 10) : digitVal (digitCh d) = d := by
  unfold digitVal digitCh
  rw [ofNat_toNat_small _ (by omega)]
  omega

theorem valRev_natDigitsRevAux : ∀ (fuel n : Nat), n < fuel →
    valRev (natDigitsRevAux fuel n) = n := by
  intro fuel
  induction fuel with
  | zero =>
    intro n hn
    omega
  | succ fuel ih =>
    intro n hn
    unfold natDigitsRevAux
    by_cases h10 : n < 10
    · rw [if_pos h10]
      unfold valRev valRev
      rw [digitVal_digitCh n h10]
      omega
    · rw [if_neg h10]
      unfold valRev
      rw [digitVal_digitCh _ (by omega), ih (n / 10) (by omega)]
      omega

theorem natDigitsRev_val (n : Nat) : valRev (natDigitsRev n) = n :=
  valRev_natDigitsRevAux (n + 1) n (by omega)

theorem natStr_inj {m n : Nat} (h : natStr m = natStr n) : m = n := by
  have hdata : (natDigitsRev m).reverse = (natDigitsRev n).reverse :=
    congrArg String.data h
  have hdig : natDigitsRev m = natDigitsRev n := by
    have := congrArg List.reverse hdata
    rwa [List.reverse_reverse, List.reverse_reverse] at this
  have := congrArg valRev hdig
  rwa [natDigitsRev_val, natDigitsRev_val] at this

/-- The (name, size, truncated mtime, regular-file flag) fingerprint
data of one directory entry. -/
def entryFp (e : DirEntry) : String × Nat × Nat × Bool :=
  (e.name, e.content.length, e.mtime, e.isFile)

theorem entryFp_name {a b : DirEntry} (h : entryFp a = entryFp b) : a.name = b.name := by
  unfold entryFp at h
  exact (Prod.mk.injEq _ _ _ _).mp h |>.1

theorem entryFp_isFile {a b : DirEntry} (h : entryFp a = entryFp b) :
    a.isFile = b.isFile := by
  unfold entryFp at h
  have h2 := (Prod.mk.injEq _ _ _ _).mp h |>.2
  have h3 := (Prod.mk.injEq _ _ _ _).mp h2 |>.2
  exact (Prod.mk.injEq _ _ _ _).mp h3 |>.2

theorem entryFp_keyContrib {a b : DirEntry} (h : entryFp a = entryFp b) :
    keyContrib a = keyContrib b := by
  unfold entryFp at h
  obtain ⟨h1, h2⟩ := (Prod.mk.injEq _ _ _ _).mp h
  obtain ⟨h3, h4⟩ := (Prod.mk.injEq _ _ _ _).mp h2
  obtain ⟨h5, _⟩ := (Prod.mk.injEq _ _ _ _).mp h4
  unfold keyContrib
  rw [h1, h3, h5]

/-- Fingerprint correspondence between two directory listings. -/
def FpEquiv (bins bins' : List DirEntry) : Prop :=
  List.Forall₂ (fun a b => entryFp a = entryFp b) bins bins'

theorem insertByName_fpEquiv {a b : DirEntry} {l l' : List DirEntry}
    (hab : entryFp a = entryFp b) (h : FpEquiv l l') :
    FpEquiv (insertByName a l) (insertByName b l') := by
  induction h with
  | nil => exact List.Forall₂.cons hab List.Forall₂.nil
  | cons hxy hrest ih =>
    rename_i x y t t'
    unfold insertByName
    rw [entryFp_name hab, entryFp_name hxy]
    by_cases hle : nameLe b.name y.name = true
    · rw [if_pos hle, if_pos hle]
      exact List.Forall₂.cons hab (List.Forall₂.cons hxy hrest)
    · rw [if_neg hle, if_neg hle]
      exact List.Forall₂.cons hxy ih

theorem sortByName_fpEquiv {l l' : List DirEntry} (h : FpEquiv l l') :
    FpEquiv (sortByName l) (sortByName l') := by
  induction h with
  | nil => exact List.Forall₂.nil
  | cons hxy hrest ih => exact insertByName_fpEquiv hxy ih

theorem filter_isFile_fpEquiv {l l' : List DirEntry} (h : FpEquiv l l') :
    FpEquiv (l.filter (fun e => e.isFile)) (l'.filter (fun e => e.isFile)) := by
  induction h with
  | nil => exact List.Forall₂.nil
  | cons hxy hrest ih =>
    rename_i x y t t'
    rw [List.filter_cons, List.filter_cons, entryFp_isFile hxy]
    by_cases hf : y.isFile = true
    · rw [if_pos hf, if_pos hf]
      exact List.Forall₂.cons hxy ih
    · rw [if_neg hf, if_neg hf]
      exact ih

theorem flatMap_keyContrib_fpEquiv {l l' : List DirEntry} (h : FpEquiv l l') :
    l.flatMap keyContrib = l'.flatMap keyContrib := by
  induction h with
  | nil => rfl
  | cons hxy hrest ih =>
    rw [List.flatMap_cons, List.flatMap_cons, entryFp_keyContrib hxy, ih]

theorem bins_cache_key_congr {bins bins' : List DirEntry} (h : FpEquiv bins bins') :
    bins_cache_key bins = bins_cache_key bins' :=
  flatMap_keyContrib_fpEquiv (filter_isFile_fpEquiv (sortByName_fpEquiv h))

theorem refNameFor_congr {bins bins' : List DirEntry} (h : FpEquiv bins bins') :
    refNameFor bins = refNameFor bins' := by
  unfold refNameFor
  rw [bins_cache_key_congr h]

/-- Unfolding equation for the cache build. -/
theorem build_or_get_eq (bins : List DirEntry) (cache : List (String × String)) :
    build_or_get_binned_reference bins cache =
      (if (cache.lookup (refNameFor bins)).isSome then
        .ok (refNameFor bins, cache, false)
      else
        if ((sortByName bins).filter (fun e => faMatch e.name)).all
            (fun e => e.isFile) then
          .ok (refNameFor bins,
            (refNameFor bins,
              String.join (((sortByName bins).filter (fun e => faMatch e.name)).map
                (fun e => e.content))) :: cache,
            true)
        else .error "IsADirectoryError") := rfl

/-- Two lists that differ in exactly one position, holding `e` on the
left and `e'` on the right. -/
inductive OneDiff (e e' : DirEntry) : List DirEntry → List DirEntry → Prop
  | here (t : List DirEntry) : OneDiff e e' (e :: t) (e' :: t)
  | there (a : DirEntry) {t t' : List DirEntry} :
      OneDiff e e' t t' → OneDiff e e' (a :: t) (a :: t')

theorem oneDiff_append (e e' : DirEntry) (l1 l2 : List DirEntry) :
    OneDiff e e' (l1 ++ e :: l2) (l1 ++ e' :: l2) := by
  induction l1 with
  | nil => exact OneDiff.here l2
  | cons a t ih => exact OneDiff.there a ih

theorem insertByName_oneDiff {e e' : DirEntry} (hname : e.name = e'.name)
    (a : DirEntry) {l l' : List DirEntry} (h : OneDiff e e' l l') :
    OneDiff e e' (insertByName a l) (insertByName a l') := by
  induction h with
  | here t =>
    unfold insertByName
    rw [hname]
    by_cases hle : nameLe a.name e'.name = true
    · rw [if_pos hle, if_pos hle]
      exact OneDiff.there a (OneDiff.here t)
    · rw [if_neg hle, if_neg hle]
      exact OneDiff.here (insertByName a t)
  | there x hod ih =>
    unfold insertByName
    by_cases hle : nameLe a.name x.name = true
    · rw [if_pos hle, if_pos hle]
      exact OneDiff.there a (OneDiff.there x hod)
    · rw [if_neg hle, if_neg hle]
      exact OneDiff.there x ih

theorem insertByName_self_oneDiff {e e' : DirEntry} (hname : e.name = e'.name)
    (l : List DirEntry) :
    OneDiff e e' (insertByName e l) (insertByName e' l) := by
  induction l with
  | nil => exact OneDiff.here []
  | cons x t ih =>
    unfold insertByName
    rw [hname]
    by_cases hle : nameLe e'.name x.name = true
    · rw [if_pos hle, if_pos hle]
      exact OneDiff.here (x :: t)
    · rw [if_neg hle, if_neg hle]
      exact OneDiff.there x ih

theorem sortByName_oneDiff {e e' : DirEntry} (hname : e.name = e'.name)
    {l l' : List DirEntry} (h : OneDiff e e' l l') :
    OneDiff e e' (sortByName l) (sortByName l') := by
  induction h with
  | here t => exact insertByName_self_oneDiff hname (sortByName t)
  | there x hod ih => exact insertByName_oneDiff hname x ih

theorem filter_oneDiff {e e' : DirEntry} {p : DirEntry → Bool}
    (hpe : p e = true) (hpe' : p e' = true)
    {l l' : List DirEntry} (h : OneDiff e e' l l') :
    OneDiff e e' (l.filter p) (l'.filter p) := by
  induction h with
  | here t =>
    rw [List.filter_cons, List.filter_cons, if_pos hpe, if_pos hpe']
    exact OneDiff.here _
  | there x hod ih =>
    rw [List.filter_cons, List.filter_cons]
    by_cases hx : p x = true
    · rw [if_pos hx, if_pos hx]
      exact OneDiff.there x ih
    · rw [if_neg hx, if_neg hx]
      exact ih

theorem filter_oneDiff_drop {e e' : DirEntry} {p : DirEntry → Bool}
    (hpe : p e = false) (hpe' : p e' = false)
    {l l' : List DirEntry} (h : OneDiff e e' l l') :
    l.filter p = l'.filter p := by
  induction h with
  | here t =>
    rw [List.filter_cons, List.filter_cons, if_neg (by simp [hpe]),
      if_neg (by simp [hpe'])]
  | there x hod ih =>
    rw [List.filter_cons, List.filter_cons, ih]

theorem flatMap_oneDiff {e e' : DirEntry} {l l' : List DirEntry}
    (h : OneDiff e e' l l') :
    ∃ P S : List Char, l.flatMap keyContrib = P ++ (keyContrib e ++ S) ∧
      l'.flatMap keyContrib = P ++ (keyContrib e' ++ S) := by
  induction h with
  | here t =>
    exact ⟨[], t.flatMap keyContrib, by rw [List.flatMap_cons]; rfl,
      by rw [List.flatMap_cons]; rfl⟩
  | there x hod ih =>
    obtain ⟨P, S, h1, h2⟩ := ih
    refine ⟨keyContrib x ++ P, S, ?_, ?_⟩
    · rw [List.flatMap_cons, h1, List.append_assoc]
    · rw [List.flatMap_cons, h2, List.append_assoc]

theorem map_content_oneDiff {e e' : DirEntry} (hc : e.content = e'.content)
    {l l' : List DirEntry} (h : OneDiff e e' l l') :
    l.map (fun x => x.content) = l'.map (fun x => x.content) := by
  induction h with
  | here t =>
    rw [List.map_cons, List.map_cons, hc]
  | there x hod ih =>
    rw [List.map_cons, List.map_cons, ih]

theorem bins_cache_key_mtime {l1 l2 : List DirEntry} {e : DirEntry} {m' : Nat}
    (hfile : e.isFile = true) (hm : m' ≠ e.mtime) :
    bins_cache_key (l1 ++ e :: l2) ≠
      bins_cache_key (l1 ++ { e with mtime := m' } :: l2) := by
  intro heq
  set e' : DirEntry := { e with mtime := m' } with he'
  have hname : e.name = e'.name := rfl
  have hod : OneDiff e e' (sortByName (l1 ++ e :: l2)) (sortByName (l1 ++ e' :: l2)) :=
    sortByName_oneDiff hname (oneDiff_append e e' l1 l2)
  have hodf : OneDiff e e'
      ((sortByName (l1 ++ e :: l2)).filter (fun x => x.isFile))
      ((sortByName (l1 ++ e' :: l2)).filter (fun x => x.isFile)) :=
    @filter_oneDiff e e' (fun x => x.isFile) hfile hfile _ _ hod
  obtain ⟨P, S, h1, h2⟩ := flatMap_oneDiff hodf
  unfold bins_cache_key at heq
  rw [h1, h2] at heq
  have heq2 : keyContrib e ++ S = keyContrib e' ++ S := List.append_cancel_left heq
  unfold keyContrib at heq2
  rw [List.append_assoc, List.append_assoc, List.append_assoc, List.append_assoc]
    at heq2
  have heq3 := List.append_cancel_left heq2
  have heq4 : (natStr e.mtime).data ++ S = (natStr e'.mtime).data ++ S :=
    List.append_cancel_left heq3
  have hlen : (natStr e.mtime).data.length = (natStr e'.mtime).data.length := by
    have := congrArg List.length heq4
    rw [List.length_append, List.length_append] at this
    omega
  have hstr : (natStr e.mtime).data = (natStr e'.mtime).data :=
    (List.append_inj heq4 hlen).1
  have : e.mtime = e'.mtime := natStr_inj (String.ext hstr)
  exact hm this.symm

/-- C8: (a) if the (name, size, truncated mtime, regular-file) tuples
of the fragment directory are unchanged between two successive calls
with the same cache state, the second call returns the same path,
leaves the cache unchanged and does not rewrite the artifact; (b)
changing the modification time of any regular fragment file changes
the computed fingerprint and therefore the returned artifact path. -/
theorem claim_C8 :
    (∀ (bins bins' : List DirEntry) (cache c1 : List (String × String))
        (ref : String) (w1 : Bool),
      FpEquiv bins bins' →
      build_or_get_binned_reference bins cache = .ok (ref, c1, w1) →
      build_or_get_binned_reference bins' c1 = .ok (ref, c1, false)) ∧
    (∀ (l1 l2 : List DirEntry) (e : DirEntry) (m' : Nat),
      e.isFile = true → m' ≠ e.mtime →
      bins_cache_key (l1 ++ e :: l2) ≠
        bins_cache_key (l1 ++ { e with mtime := m' } :: l2) ∧
      refNameFor (l1 ++ e :: l2) ≠
        refNameFor (l1 ++ { e with mtime := m' } :: l2)) := by
  constructor
  · intro bins bins' cache c1 ref w1 hfp hok
    have href : refNameFor bins' = refNameFor bins := (refNameFor_congr hfp).symm
    rw [build_or_get_eq] at hok
    rw [build_or_get_eq, href]
    by_cases hc : (cache.lookup (refNameFor bins)).isSome = true
    · rw [if_pos hc] at hok
      injection hok with hok
      obtain ⟨h1, h2⟩ := Prod.mk.injEq .. |>.mp hok
      obtain ⟨h3, _⟩ := Prod.mk.injEq .. |>.mp h2
      subst h1
      subst h3
      rw [if_pos hc]
    · rw [if_neg hc] at hok
      by_cases hall : ((sortByName bins).filter (fun e => faMatch e.name)).all
          (fun e => e.isFile) = true
      · rw [if_pos hall] at hok
        injection hok with hok
        obtain ⟨h1, h2⟩ := Prod.mk.injEq .. |>.mp hok
        obtain ⟨h3, _⟩ := Prod.mk.injEq .. |>.mp h2
        subst h1
        subst h3
        rw [if_pos (by simp [List.lookup])]
      · rw [if_neg hall] at hok
        cases hok
  · intro l1 l2 e m' hfile hm
    have hkey := @bins_cache_key_mtime l1 l2 e m' hfile hm
    refine ⟨hkey, ?_⟩
    intro heq
    apply hkey
    unfold refNameFor at heq
    have hdata := congrArg String.data heq
    simp only [String.data_append] at hdata
    rw [List.append_assoc, List.append_assoc] at hdata
    have h1 := List.append_cancel_left hdata
    exact List.append_cancel_right h1

/-- Witness for C8: a one-file directory, first built then reused, and
an mtime bump that changes the key and the path. -/
theorem claim_C8_witness :
    build_or_get_binned_reference [⟨"a.fa", "AA", 5, true⟩]
        ((refNameFor [⟨"a.fa", "AA", 5, true⟩], "AA") :: []) =
      .ok (refNameFor [⟨"a.fa", "AA", 5, true⟩],
        (refNameFor [⟨"a.fa", "AA", 5, true⟩], "AA") :: [], false) ∧
    refNameFor ([] ++ (⟨"a.fa", "AA", 5, true⟩ : DirEntry) :: []) ≠
      refNameFor ([] ++ ({ (⟨"a.fa", "AA", 5, true⟩ : DirEntry) with mtime := 6 }) :: []) := by
  constructor
  · apply claim_C8.1 [⟨"a.fa", "AA", 5, true⟩] [⟨"a.fa", "AA", 5, true⟩]
      ((refNameFor [⟨"a.fa", "AA", 5, true⟩], "AA") :: []) _ _ _
      (List.Forall₂.cons rfl List.Forall₂.nil)
    rw [build_or_get_eq]
    rw [if_pos (by simp [List.lookup])]
  · exact (claim_C8.2 [] [] ⟨"a.fa", "AA", 5, true⟩ 6 rfl (by decide)).2

/-- C7 fails as stated: the build concatenates only the fragment files
whose names match `*.fa*`; a regular fragment file named `a.txt` with
content `X` contributes nothing, so the artifact content is the empty
string while the concatenation of all regular fragment files is `X`. -/
theorem claim_C7_counterexample :
    build_or_get_binned_reference [⟨"a.txt", "X", 0, true⟩] [] =
      .ok (refNameFor [⟨"a.txt", "X", 0, true⟩],
        [(refNameFor [⟨"a.txt", "X", 0, true⟩], "")], true) ∧
    String.join (((sortByName [⟨"a.txt", "X", 0, true⟩]).filter
      (fun e => e.isFile)).map (fun e => e.content)) = "X" ∧
    ("" : String) ≠ "X" :=
  ⟨rfl, rfl, by decide⟩

/-- C7 amended: when a new artifact is built, its content is the
byte-for-byte concatenation, in ascending filename order, of exactly
those fragment entries whose names match `*.fa*` (contain `".fa"`);
a fragment file whose name does not match contributes nothing — its
content can change without changing the built artifact content. -/
theorem claim_C7 :
    (∀ (bins : List DirEntry) (cache : List (String × String)),
      (cache.lookup (refNameFor bins)).isSome = false →
      ((sortByName bins).filter (fun e => faMatch e.name)).all
        (fun e => e.isFile) = true →
      build_or_get_binned_reference bins cache =
        .ok (refNameFor bins,
          (refNameFor bins,
            String.join (((sortByName bins).filter (fun e => faMatch e.name)).map
              (fun e => e.content))) :: cache, true)) ∧
    (∀ (l1 l2 : List DirEntry) (e : DirEntry) (content' : String),
      faMatch e.name = false →
      String.join (((sortByName (l1 ++ e :: l2)).filter
        (fun x => faMatch x.name)).map (fun x => x.content)) =
      String.join (((sortByName (l1 ++ { e with content := content' } :: l2)).filter
        (fun x => faMatch x.name)).map (fun x => x.content))) := by
  constructor
  · intro bins cache hnc hall
    rw [build_or_get_eq, if_neg (by simp [hnc]), if_pos hall]
  · intro l1 l2 e content' hfa
    have hname : e.name = ({ e with content := content' } : DirEntry).name := rfl
    have hod : OneDiff e { e with content := content' }
        (sortByName (l1 ++ e :: l2))
        (sortByName (l1 ++ { e with content := content' } :: l2)) :=
      sortByName_oneDiff hname (oneDiff_append e { e with content := content' } l1 l2)
    have hfilter := @filter_oneDiff_drop e { e with content := content' }
      (fun x => faMatch x.name) hfa hfa _ _ hod
    rw [hfilter]

/-- Witness for the amended C7: a directory with a matching and a
non-matching fragment file, built into a fresh cache, and a content
change of the non-matching file leaving the artifact bytes unchanged. -/
theorem claim_C7_witness :
    build_or_get_binned_reference
        [⟨"b.fa", "BBB", 1, true⟩, ⟨"a.txt", "X", 2, true⟩] [] =
      .ok (refNameFor [⟨"b.fa", "BBB", 1, true⟩, ⟨"a.txt", "X", 2, true⟩],
        (refNameFor [⟨"b.fa", "BBB", 1, true⟩, ⟨"a.txt", "X", 2, true⟩],
          String.join (((sortByName [⟨"b.fa", "BBB", 1, true⟩,
              ⟨"a.txt", "X", 2, true⟩]).filter (fun e => faMatch e.name)).map
            (fun e => e.content))) :: [], true) ∧
    String.join (((sortByName ([] ++ (⟨"a.txt", "X", 2, true⟩ : DirEntry) ::
        [⟨"b.fa", "BBB", 1, true⟩])).filter
      (fun x => faMatch x.name)).map (fun x => x.content)) =
    String.join (((sortByName ([] ++
        ({ (⟨"a.txt", "X", 2, true⟩ : DirEntry) with content := "YYYY" }) ::
        [⟨"b.fa", "BBB", 1, true⟩])).filter
      (fun x => faMatch x.name)).map (fun x => x.content)) :=
  ⟨claim_C7.1 [⟨"b.fa", "BBB", 1, true⟩, ⟨"a.txt", "X", 2, true⟩] [] rfl (by decide),
   claim_C7.2 [] [⟨"b.fa", "BBB", 1, true⟩] ⟨"a.txt", "X", 2, true⟩ "YYYY" (by decide)⟩

/-! ### C1: lineage strings from valid rank reports -/

theorem splitChar_cons (c x : Char) (t : List Char) :
    splitChar c (x :: t) =
      (if x = c then [] :: splitChar c t
       else
         match splitChar c t with
         | [] => [[x]]
         | a :: as => (x :: a) :: as) := rfl

theorem splitChar_ne_nil (c : Char) (l : List Char) : splitChar c l ≠ [] := by
  cases l with
  | nil => simp [splitChar]
  | cons x t =>
    rw [splitChar_cons]
    by_cases hx : x = c
    · simp [hx]
    · simp only [hx, if_false]
      cases splitChar c t <;> simp

theorem splitChar_append (c : Char) (a : List Char) (ha : c ∉ a) :
    ∀ (l : List Char) (h : List Char) (t : List (List Char)),
      splitChar c l = h :: t → splitChar c (a ++ l) = (a ++ h) :: t := by
  induction a with
  | nil =>
    intro l h t hl
    rw [List.nil_append, hl, List.nil_append]
  | cons x a' ih =>
    intro l h t hl
    have hx : ¬x = c := by
      intro hxc
      exact ha (hxc ▸ List.mem_cons_self x a')
    have ha' : c ∉ a' := fun hm => ha (List.mem_cons_of_mem x hm)
    rw [List.cons_append, splitChar_cons, if_neg hx, ih ha' l h t hl]
    rfl

theorem splitChar_join (c : Char) :
    ∀ (parts : List (List Char)), parts ≠ [] → (∀ p ∈ parts, c ∉ p) →
      splitChar c (joinChar c parts) = parts := by
  intro parts
  induction parts with
  | nil => intro h _; exact absurd rfl h
  | cons a rest ih =>
    intro _ hcl
    cases rest with
    | nil =>
      show splitChar c (joinChar c [a]) = [a]
      have h2 := splitChar_append c a (hcl a (by simp)) [] [] [] rfl
      rw [List.append_nil] at h2
      exact h2
    | cons b rest' =>
      have hj : joinChar c (a :: b :: rest') = a ++ c :: joinChar c (b :: rest') := rfl
      rw [hj]
      have hrec : splitChar c (joinChar c (b :: rest')) = b :: rest' :=
        ih (by simp) (fun p hp => hcl p (by simp [hp]))
      have hcons : splitChar c (c :: joinChar c (b :: rest')) =
          [] :: (b :: rest') := by
        rw [splitChar_cons, if_pos rfl, hrec]
      have := splitChar_append c a (hcl a (by simp)) _ _ _ hcons
      rw [this, List.append_nil]

/-- The fixed rank-prefix table, in rank order, for species rows. -/
def prefixes8 : List String := ["d__", "k__", "p__", "c__", "o__", "f__", "g__", "s__"]

/-- The fixed rank-prefix table for genus rows (ranks domain…genus). -/
def prefixes7 : List String := ["d__", "k__", "p__", "c__", "o__", "f__", "g__"]

/-- A lineage segment begins with the given rank prefix. -/
def SegOk (seg pref : String) : Prop := ∃ rest : List Char, seg.data = pref.data ++ rest

/-- What the claim asserts of every recorded lineage string: its
semicolon-split segments align one-to-one (hence in count) with the
rank-prefix table for genus (7) or species (8) rows, each segment
beginning with its rank's prefix. -/
def GoodLineage (lin : String) : Prop :=
  List.Forall₂ SegOk (pySplit ';' lin) prefixes7 ∨
  List.Forall₂ SegOk (pySplit ';' lin) prefixes8

/-- The ladder is full up to genus (ranks domain…family already seen —
rank `G` itself is set by the genus row being processed). -/
def ladderFullG (f : String → Option String) : Bool :=
  ["D", "K", "P", "C", "O", "F"].all (fun r => (f r).isSome)

/-- The ladder is full up to species (ranks domain…genus already seen). -/
def ladderFullS (f : String → Option String) : Bool :=
  orderedG.all (fun r => (f r).isSome)

/-- The claim's validity condition for one row, at the state in which
the row is processed: names that enter the ladder are semicolon-free,
and when a genus/species row arrives the ladder holds its full
ancestor chain (the top-down order precondition). -/
def rowOk (st : LBState) (line : String) : Bool :=
  match reportRow line with
  | none => true
  | some (rank, _, name) =>
    (decide (rankPref rank = none) || !decide (';' ∈ name.data)) &&
    (decide (rank ≠ "G") || ladderFullG st.lineage_by_rank) &&
    (decide (rank ≠ "S") || ladderFullS st.lineage_by_rank)

/-- A valid top-down rank report, checked along the parsing fold. -/
def validReport : LBState → List String → Bool
  | _, [] => true
  | st, line :: rest => rowOk st line && validReport (procLine st line) rest

/-- Well-formedness of the ladder map: every entry is its rank's
prefix followed by a semicolon-free name. -/
def LadderWF (f : String → Option String) : Prop :=
  ∀ r v, f r = some v →
    ∃ p rest, rankPref r = some p ∧ v.data = p.data ++ rest ∧ ';' ∉ rest

/-- Well-formedness of a result map: every recorded lineage is good. -/
def MapWF (g : String → Option String) : Prop :=
  ∀ t lin, g t = some lin → GoodLineage lin

theorem rankPref_no_semi {r p : String} (h : rankPref r = some p) : ';' ∉ p.data := by
  unfold rankPref at h
  split at h <;> first
    | (injection h with h; rw [← h]; decide)
    | cases h

theorem pySplit_pyJoin (c : Char) (parts : List String) (hne : parts ≠ [])
    (hcl : ∀ p ∈ parts, c ∉ p.data) : pySplit c (pyJoin c parts) = parts := by
  unfold pySplit pyJoin
  rw [show ((⟨joinChar c (parts.map String.data)⟩ : String).data) =
    joinChar c (parts.map String.data) from rfl]
  rw [splitChar_join c (parts.map String.data) (by simp [hne])
    (by
      intro p hp
      obtain ⟨s, hs, hsp⟩ := List.mem_map.mp hp
      rw [← hsp]
      exact hcl s hs)]
  rw [List.map_map]
  have hid : ∀ x ∈ parts, (String.mk ∘ String.data) x = x := fun x _ => rfl
  rw [List.map_congr_left hid]
  exact List.map_id' parts

theorem join_forall2 (f : String → Option String) (hwf : LadderWF f) :
    ∀ ordered : List String,
      (∀ r ∈ ordered, (f r).isSome = true) →
      List.Forall₂ SegOk (ordered.filterMap f) (ordered.filterMap rankPref) ∧
        (∀ v ∈ ordered.filterMap f, ';' ∉ v.data) ∧
        (ordered ≠ [] → ordered.filterMap f ≠ []) := by
  intro ordered
  induction ordered with
  | nil =>
    intro _
    exact ⟨List.Forall₂.nil, by simp, fun h => absurd rfl h⟩
  | cons r rest ih =>
    intro hfull
    obtain ⟨v, hv⟩ := Option.isSome_iff_exists.mp (hfull r (by simp))
    obtain ⟨p, restn, hp, hvdata, hsemi⟩ := hwf r v hv
    obtain ⟨ihf, ihsemi, _⟩ := ih (fun x hx => hfull x (by simp [hx]))
    rw [List.filterMap_cons, List.filterMap_cons, hv, hp]
    refine ⟨List.Forall₂.cons ⟨restn, hvdata⟩ ihf, ?_, fun _ => by simp⟩
    intro w hw
    rcases List.mem_cons.mp hw with hw | hw
    · subst hw
      rw [hvdata]
      intro hmem
      rcases List.mem_append.mp hmem with h | h
      · exact rankPref_no_semi hp h
      · exact hsemi h
    · exact ihsemi w hw

theorem join_goodlineage (f : String → Option String) (hwf : LadderWF f)
    (ordered prefixes : List String)
    (hfull : ∀ r ∈ ordered, (f r).isSome = true)
    (hne : ordered ≠ [])
    (hpref : ordered.filterMap rankPref = prefixes) :
    List.Forall₂ SegOk (pySplit ';' (pyJoin ';' (ordered.filterMap f))) prefixes := by
  obtain ⟨hf2, hsemi, hnempty⟩ := join_forall2 f hwf ordered hfull
  rw [pySplit_pyJoin ';' _ (hnempty hne) hsemi, ← hpref]
  exact hf2

theorem ladderFullG_mem {f : String → Option String} (h : ladderFullG f = true) :
    ∀ r ∈ ["D", "K", "P", "C", "O", "F"], (f r).isSome = true := by
  unfold ladderFullG at h
  rw [List.all_eq_true] at h
  exact h

theorem ladderFullS_mem {f : String → Option String} (h : ladderFullS f = true) :
    ∀ r ∈ orderedG, (f r).isSome = true := by
  unfold ladderFullS at h
  rw [List.all_eq_true] at h
  exact h

theorem ladderWF_upd {f : String → Option String} (hf : LadderWF f)
    {rank pref : String} (name : String) (hp : rankPref rank = some pref)
    (hsemi : ';' ∉ name.data) : LadderWF (updOpt rank (pref ++ name) f) := by
  intro r v hv
  by_cases hrr : r = rank
  · subst hrr
    rw [updOpt_self] at hv
    injection hv with hv
    refine ⟨pref, name.data, hp, ?_, hsemi⟩
    rw [← hv]
    exact String.data_append pref name
  · rw [updOpt_ne hrr] at hv
    exact hf r v hv

theorem mapWF_upd {g : String → Option String} (hg : MapWF g) (k ls : String)
    (hls : GoodLineage ls) : MapWF (updOpt k ls g) := by
  intro t lin h
  by_cases htt : t = k
  · subst htt
    rw [updOpt_self] at h
    injection h with h
    rw [← h]
    exact hls
  · rw [updOpt_ne htt] at h
    exact hg t lin h

theorem rowOk_parts {st : LBState} {line rank taxid name : String}
    (hr : reportRow line = some (rank, taxid, name))
    (hrow : rowOk st line = true) :
    (rankPref rank = none ∨ ';' ∉ name.data) ∧
      (rank = "G" → ladderFullG st.lineage_by_rank = true) ∧
      (rank = "S" → ladderFullS st.lineage_by_rank = true) := by
  unfold rowOk at hrow
  rw [hr] at hrow
  simp only [Bool.and_eq_true, Bool.or_eq_true, decide_eq_true_eq,
    Bool.not_eq_true', decide_eq_false_iff_not, ne_eq] at hrow
  obtain ⟨⟨h1, h2⟩, h3⟩ := hrow
  refine ⟨h1, ?_, ?_⟩
  · intro hG
    rcases h2 with h | h
    · exact absurd hG h
    · exact h
  · intro hS
    rcases h3 with h | h
    · exact absurd hS h
    · exact h

theorem full_after_G {f : String → Option String} (v : String)
    (hfg : ladderFullG f = true) :
    ∀ r ∈ orderedG, ((updOpt "G" v f) r).isSome = true := by
  intro r hrm
  have hrm' : r = "D" ∨ r = "K" ∨ r = "P" ∨ r = "C" ∨ r = "O" ∨ r = "F" ∨
      r = "G" := by
    simpa [orderedG] using hrm
  rcases hrm' with rfl | rfl | rfl | rfl | rfl | rfl | rfl
  · rw [updOpt_ne (by decide)]
    exact ladderFullG_mem hfg "D" (by decide)
  · rw [updOpt_ne (by decide)]
    exact ladderFullG_mem hfg "K" (by decide)
  · rw [updOpt_ne (by decide)]
    exact ladderFullG_mem hfg "P" (by decide)
  · rw [updOpt_ne (by decide)]
    exact ladderFullG_mem hfg "C" (by decide)
  · rw [updOpt_ne (by decide)]
    exact ladderFullG_mem hfg "O" (by decide)
  · rw [updOpt_ne (by decide)]
    exact ladderFullG_mem hfg "F" (by decide)
  · rw [updOpt_self]
    rfl

theorem full_after_S {f : String → Option String} (v : String)
    (hfs : ladderFullS f = true) :
    ∀ r ∈ orderedG ++ ["S"], ((updOpt "S" v f) r).isSome = true := by
  intro r hrm
  have hrm' : r = "D" ∨ r = "K" ∨ r = "P" ∨ r = "C" ∨ r = "O" ∨ r = "F" ∨
      r = "G" ∨ r = "S" := by
    simpa [orderedG] using hrm
  rcases hrm' with rfl | rfl | rfl | rfl | rfl | rfl | rfl | rfl
  · rw [updOpt_ne (by decide)]
    exact ladderFullS_mem hfs "D" (by decide)
  · rw [updOpt_ne (by decide)]
    exact ladderFullS_mem hfs "K" (by decide)
  · rw [updOpt_ne (by decide)]
    exact ladderFullS_mem hfs "P" (by decide)
  · rw [updOpt_ne (by decide)]
    exact ladderFullS_mem hfs "C" (by decide)
  · rw [updOpt_ne (by decide)]
    exact ladderFullS_mem hfs "O" (by decide)
  · rw [updOpt_ne (by decide)]
    exact ladderFullS_mem hfs "F" (by decide)
  · rw [updOpt_ne (by decide)]
    exact ladderFullS_mem hfs "G" (by decide)
  · rw [updOpt_self]
    rfl

theorem procLine_wf (st : LBState) (line : String)
    (hL : LadderWF st.lineage_by_rank) (hM : MapWF st.taxid_to_lineage)
    (hrow : rowOk st line = true) :
    LadderWF (procLine st line).lineage_by_rank ∧
      MapWF (procLine st line).taxid_to_lineage := by
  unfold procLine
  rcases hr : reportRow line with _ | ⟨rank, taxid, name⟩
  · exact ⟨hL, hM⟩
  · obtain ⟨hname, hG, hS⟩ := rowOk_parts hr hrow
    rcases hp : rankPref rank with _ | pref
    · simp only [hp]
      by_cases hGS : rank = "G" ∨ rank = "S"
      · exfalso
        rcases hGS with h | h <;> rw [h] at hp <;> cases hp
      · rw [if_neg hGS]
        exact ⟨hL, hM⟩
    · simp only [hp]
      have hsemi : ';' ∉ name.data := by
        rcases hname with h | h
        · rw [hp] at h
          cases h
        · exact h
      have hL1 : LadderWF (updOpt rank (pref ++ name) st.lineage_by_rank) :=
        ladderWF_upd hL name hp hsemi
      by_cases hGS : rank = "G" ∨ rank = "S"
      · rw [if_pos hGS]
        have hGood : GoodLineage (pyJoin ';'
            ((if rank = "S" then orderedG ++ ["S"] else orderedG).filterMap
              (updOpt rank (pref ++ name) st.lineage_by_rank))) := by
          rcases hGS with hGr | hSr
          · subst hGr
            rw [if_neg (by decide)]
            left
            injection hp.symm.trans (show rankPref "G" = some "g__" from rfl)
              with hpref
            exact join_goodlineage _ hL1 orderedG prefixes7
              (full_after_G _ (hG rfl)) (by decide) (by decide)
          · subst hSr
            rw [if_pos rfl]
            right
            exact join_goodlineage _ hL1 (orderedG ++ ["S"]) prefixes8
              (full_after_S _ (hS rfl)) (by decide) (by decide)
        exact ⟨hL1, mapWF_upd hM taxid _ hGood⟩
      · rw [if_neg hGS]
        exact ⟨hL1, hM⟩

theorem validReport_fold : ∀ (lines : List String) (st : LBState),
    LadderWF st.lineage_by_rank → MapWF st.taxid_to_lineage →
    validReport st lines = true →
    LadderWF (lines.foldl procLine st).lineage_by_rank ∧
      MapWF (lines.foldl procLine st).taxid_to_lineage := by
  intro lines
  induction lines with
  | nil =>
    intro st hL hM _
    exact ⟨hL, hM⟩
  | cons line rest ih =>
    intro st hL hM hv
    unfold validReport at hv
    rw [Bool.and_eq_true] at hv
    obtain ⟨hrow, hrest⟩ := hv
    obtain ⟨hL1, hM1⟩ := procLine_wf st line hL hM hrow
    rw [List.foldl_cons]
    exact ih (procLine st line) hL1 hM1 hrest

theorem procLine_G (st : LBState) (line taxid name : String)
    (hL : LadderWF st.lineage_by_rank) (hrow : rowOk st line = true)
    (hr : reportRow line = some ("G", taxid, name)) :
    ∃ lin, (procLine st line).taxid_to_lineage taxid = some lin ∧
      List.Forall₂ SegOk (pySplit ';' lin) prefixes7 := by
  obtain ⟨hname, hG, _⟩ := rowOk_parts hr hrow
  have hsemi : ';' ∉ name.data := by
    rcases hname with h | h
    · cases h
    · exact h
  have hstep : procLine st line =
      { st with
        lineage_by_rank := updOpt "G" ("g__" ++ name) st.lineage_by_rank,
        taxid_to_lineage := updOpt taxid
          (pyJoin ';' (orderedG.filterMap
            (updOpt "G" ("g__" ++ name) st.lineage_by_rank)))
          st.taxid_to_lineage } := by
    unfold procLine
    rw [hr]
    rfl
  rw [hstep]
  have hL1 : LadderWF (updOpt "G" ("g__" ++ name) st.lineage_by_rank) :=
    ladderWF_upd hL name rfl hsemi
  exact ⟨_, updOpt_self _ _ _,
    join_goodlineage _ hL1 orderedG prefixes7 (full_after_G _ (hG rfl))
      (by decide) (by decide)⟩

theorem procLine_S (st : LBState) (line taxid name : String)
    (hL : LadderWF st.lineage_by_rank) (hrow : rowOk st line = true)
    (hr : reportRow line = some ("S", taxid, name)) :
    ∃ lin, (procLine st line).taxid_to_lineage taxid = some lin ∧
      List.Forall₂ SegOk (pySplit ';' lin) prefixes8 := by
  obtain ⟨hname, _, hS⟩ := rowOk_parts hr hrow
  have hsemi : ';' ∉ name.data := by
    rcases hname with h | h
    · cases h
    · exact h
  have hstep : procLine st line =
      { st with
        lineage_by_rank := updOpt "S" ("s__" ++ name) st.lineage_by_rank,
        taxid_to_lineage := updOpt taxid
          (pyJoin ';' ((orderedG ++ ["S"]).filterMap
            (updOpt "S" ("s__" ++ name) st.lineage_by_rank)))
          st.taxid_to_lineage } := by
    unfold procLine
    rw [hr]
    rfl
  rw [hstep]
  have hL1 : LadderWF (updOpt "S" ("s__" ++ name) st.lineage_by_rank) :=
    ladderWF_upd hL name rfl hsemi
  exact ⟨_, updOpt_self _ _ _,
    join_goodlineage _ hL1 (orderedG ++ ["S"]) prefixes8
      (full_after_S _ (hS rfl)) (by decide) (by decide)⟩

/-- C1: over any valid top-down rank report (ancestor chains present
when genus/species rows arrive, ladder names free of semicolons),
every lineage recorded by the Lineage Builder splits on semicolons
into segments aligned one-to-one with the fixed rank-prefix table —
seven segments (d__…g__) or eight (d__…s__) — each beginning with its
rank's prefix; and a genus row always records a seven-segment lineage
for its taxid, a species row an eight-segment one. -/
theorem claim_C1 :
    (∀ lines : List String, validReport initLB lines = true →
      ∀ t lin, parse_report_build_label_map lines t = some lin → GoodLineage lin) ∧
    (∀ (st : LBState) (line taxid name : String),
      LadderWF st.lineage_by_rank → rowOk st line = true →
      reportRow line = some ("G", taxid, name) →
      ∃ lin, (procLine st line).taxid_to_lineage taxid = some lin ∧
        List.Forall₂ SegOk (pySplit ';' lin) prefixes7) ∧
    (∀ (st : LBState) (line taxid name : String),
      LadderWF st.lineage_by_rank → rowOk st line = true →
      reportRow line = some ("S", taxid, name) →
      ∃ lin, (procLine st line).taxid_to_lineage taxid = some lin ∧
        List.Forall₂ SegOk (pySplit ';' lin) prefixes8) := by
  refine ⟨?_, procLine_G, procLine_S⟩
  intro lines hv t lin hlin
  have hinit1 : LadderWF initLB.lineage_by_rank := by
    intro r v hv'
    cases hv'
  have hinit2 : MapWF initLB.taxid_to_lineage := by
    intro t' lin' hv'
    cases hv'
  exact (validReport_fold lines initLB hinit1 hinit2 hv).2 t lin hlin

/-- The concrete top-down rank report of the C1 witness. -/
def rptW : List String :=
  ["10\t5\t100\tD\t1\tBacteria\n",
   "9\t4\t90\tK\t2\tBacilli_K\n",
   "8\t3\t80\tP\t3\tFirmicutes\n",
   "7\t2\t70\tC\t4\tBacilli\n",
   "6\t1\t60\tO\t5\tLactobacillales\n",
   "5\t1\t50\tF\t6\tLactobacillaceae\n",
   "4\t1\t40\tG\t7\tLactobacillus\n",
   "3\t1\t30\tS\t8\tLactobacillus crispatus\n"]

/-- Witness for C1: a concrete valid eight-rank report; the species
taxid 8 is recorded with a good (eight-segment, prefix-aligned)
lineage. -/
theorem claim_C1_witness :
    validReport initLB rptW = true ∧
    ∃ lin, parse_report_build_label_map rptW "8" = some lin ∧ GoodLineage lin :=
  ⟨by decide, ⟨_, rfl, claim_C1.1 rptW (by decide) "8" _ rfl⟩⟩

end MagAttrition
